import Mathlib

/-!
Verification of the lesson-summarizer core: the character chunker
(`lesson_summarizer/chunking.py`), the summarization orchestrator
(`lesson_summarizer/core.py` with `llm/prompts.py`), and the Markdown
renderer front end (`lesson_summarizer/pdf_export.py`).

Strings are modelled as `List Char` (Python `str` indexing and slicing are
character-based).  Fallible Python functions (those that `raise`) are
modelled with `Except`.  Loops that are not structurally recursive are
given an explicit fuel argument large enough for every reachable input, so
that all definitions compute by `decide` / `rfl`.
-/

namespace LessonSummarizer

/-! ## Python string primitives -/

/-- Python whitespace for `str.strip` / `str.rstrip` (ASCII subset, which
covers every character occurring in this code base). -/
def pyIsSpace (c : Char) : Bool :=
  c = ' ' || c = '\t' || c = '\n' || c = '\r' || c = '\x0b' || c = '\x0c'

/-- Python `str.lstrip()`. -/
def pyLStrip (s : List Char) : List Char := s.dropWhile pyIsSpace

/-- Python `str.rstrip()`. -/
def pyRStrip (s : List Char) : List Char :=
  (s.reverse.dropWhile pyIsSpace).reverse

/-- Python `str.strip()`. -/
def pyStrip (s : List Char) : List Char := pyLStrip (pyRStrip s)

/-- Worker for `pyReplace`: fuel bounds the number of scan steps; each step
consumes at least one character, so fuel `s.length` always suffices. -/
def pyReplaceGo (pat rep : List Char) : Nat → List Char → List Char
  | _, [] => []
  | 0, s => s
  | fuel + 1, c :: s =>
      if pat.isPrefixOf (c :: s) then
        rep ++ pyReplaceGo pat rep fuel ((c :: s).drop pat.length)
      else
        c :: pyReplaceGo pat rep fuel s

/-- Python `str.replace(pat, rep)` for a nonempty `pat`: replaces every
occurrence left to right, never rescanning replaced text. -/
def pyReplace (pat rep s : List Char) : List Char :=
  match pat with
  | [] => s
  | _ :: _ => pyReplaceGo pat rep s.length s

/-- Worker for `splitLines` (accumulator holds the current line reversed). -/
def splitLinesGo : List Char → List Char → List (List Char)
  | cur, [] => [cur.reverse]
  | cur, '\n' :: rest =>
      cur.reverse :: (if rest.isEmpty then [] else splitLinesGo [] rest)
  | cur, c :: rest => splitLinesGo (c :: cur) rest

/-- Python `str.splitlines()` restricted to `'\n'` separators (the only line
separator produced anywhere in this code base). -/
def splitLines (s : List Char) : List (List Char) :=
  if s.isEmpty then [] else splitLinesGo [] s

/-! ## Chunker (`chunking.py`, `chunk_text`) -/

/-- The error raised by `chunk_text` on a bad configuration (a Python
`ValueError`; the spec's `InvalidArgument`). -/
inductive ChunkError where
  | invalidArgument (msg : String)
  deriving DecidableEq, Repr

/-- Python `text[a : a + len]` for `0 ≤ a` (clamped at the end of the text,
as Python slicing is). -/
def pySlice (text : List Char) (a len : Nat) : List Char :=
  (text.drop a).take len

/-- The `overlap == 0` loop of `chunk_text`: `count` iterations appending
`text[bottom : bottom + chunkSize]` and advancing `bottom` by `chunkSize`. -/
def chunksNoOverlap (text : List Char) (chunkSize : Nat) :
    Nat → Nat → List (List Char)
  | 0, _ => []
  | count + 1, bottom =>
      pySlice text bottom chunkSize ::
        chunksNoOverlap text chunkSize count (bottom + chunkSize)

/-- The `overlap > 0` loop of `chunk_text`: while `start < len(text)` append
`text[start : min(start + chunkSize, len(text))]` and advance by `step`.
Fuel bounds the iteration count; `text.length` suffices whenever
`step ≥ 1`. -/
def chunksOverlap (text : List Char) (chunkSize step : Nat) :
    Nat → Nat → List (List Char)
  | 0, _ => []
  | fuel + 1, start =>
      if start < text.length then
        pySlice text start chunkSize ::
          chunksOverlap text chunkSize step fuel (start + step)
      else []

/-- `chunk_text(text, chunk_size, overlap)` from `chunking.py`.  Parameters
are `Int` so that the out-of-range configurations the source rejects are
representable. -/
def chunkText (text : List Char) (chunkSize : Int) (overlap : Int) :
    Except ChunkError (List (List Char)) :=
  if chunkSize ≤ 0 then
    .error (.invalidArgument "chunk_size must be > 0")
  else if overlap < 0 then
    .error (.invalidArgument "overlap must be >= 0")
  else if chunkSize ≤ overlap then
    .error (.invalidArgument "overlap must be < chunk_size")
  else if text.length = 0 then .ok []
  else if overlap.toNat = 0 then
    .ok (chunksNoOverlap text chunkSize.toNat
      ((text.length + chunkSize.toNat - 1) / chunkSize.toNat) 0)
  else
    .ok (chunksOverlap text chunkSize.toNat
      (chunkSize.toNat - overlap.toNat) text.length 0)

/-- Concatenation of the chunks after dropping the first `overlap`
characters of every chunk except the first (the reconstruction rule of the
spec's §8). -/
def reconstruct (overlap : Nat) : List (List Char) → List Char
  | [] => []
  | p :: ps => p ++ (ps.map (List.drop overlap)).flatten

/-! ## Prompt builder (`llm/prompts.py`) -/

/-- Characters of a string literal. -/
def sl (s : String) : List Char := s.toList

/-- Python `str(n)` for a non-negative integer. -/
def natStr (n : Nat) : List Char := (Nat.repr n).toList

/-- Python `a or b` for strings (`a` if non-empty, else `b`). -/
def pyOr (a b : List Char) : List Char := if a.isEmpty then b else a

/-- `ROLE_PRESETS.get(key, "")` from `llm/prompts.py`. -/
def rolePresetsGet (key : List Char) : List Char :=
  if key = sl "data_scientist" then
    sl "Actuás como Data Scientist senior en Deep Learning. Priorizás rigor y claridad."
  else if key = sl "philosophy_expert" then
    sl "Actuás como experto en filosofía, enfocándote en ética y teorías filosóficas clave."
  else if key = sl "history_professor" then
    sl "Actuás como profesor de historia, destacando eventos y contextos históricos importantes."
  else if key = sl "data_engineer" then
    sl "Actuás como ingeniero de datos, optimizando flujos y asegurando calidad de datos."
  else if key = sl "ai_engineer" then
    sl "Actuás como ingeniero de IA, implementando modelos y soluciones de inteligencia artificial."
  else []

/-- `OUTPUT_PRESETS.get(key, "")` from `llm/prompts.py`. -/
def outputPresetsGet (key : List Char) : List Char :=
  if key = sl "apunte_detallado" then
    sl "Apunte bien detallado, con secciones, definiciones, y bullets claros."
  else if key = sl "resumen" then
    sl "Resumen conciso del contenido principal, con puntos clave y definiciones esenciales."
  else if key = sl "lista_de_conceptos" then
    sl "Lista de conceptos importantes mencionados en la lección, sin explicaciones."
  else if key = sl "preguntas_de_revision" then
    sl "Preguntas de revisión para evaluar la comprensión del material cubierto en la lección."
  else []

/-- The `BASE` preamble of `llm/prompts.py` (ends in a newline, as the
source's triple-quoted literal does). -/
def BASE : List Char :=
  sl "Sos un asistente académico. Nada de frases de cortesía.\nTu objetivo es producir un documento útil para estudiar.\n\nREGLAS:\n- No inventes hechos. Si falta información, indicá incertidumbre.\n- Priorizá claridad y estructura.\n- Usá Markdown bien formateado (títulos, listas, tablas si aplica).\n"

/-- The role text chosen by `build_prompt`. -/
def roleTxtOf (roleKey roleCustom : Option (List Char)) : List Char :=
  pyOr (pyStrip (roleCustom.getD []))
    (pyOr (pyStrip (rolePresetsGet (roleKey.getD [])))
      (sl "Actuás como un asistente académico técnico y claro."))

/-- The output-format text chosen by `build_prompt`. -/
def outTxtOf (outputKey outputCustom : Option (List Char)) : List Char :=
  pyOr (pyStrip (outputCustom.getD []))
    (pyOr (pyStrip (outputPresetsGet (outputKey.getD [])))
      (sl "Generá un apunte detallado, estructurado, sin redundancias."))

/-- `build_prompt(...)` from `llm/prompts.py`. -/
def buildPrompt (language topic : List Char)
    (roleKey roleCustom outputKey outputCustom : Option (List Char)) : List Char :=
  pyStrip (BASE ++ sl "\n\nIDIOMA: " ++ language ++ sl "\nTEMA/MATERIA: " ++ topic
    ++ sl "\n\nROL (contexto):\n" ++ roleTxtOf roleKey roleCustom
    ++ sl "\n\nTIPO DE SALIDA (requisitos):\n" ++ outTxtOf outputKey outputCustom
    ++ sl "\n")

/-! ## Orchestrator (`core.py`) -/

/-- Errors of the orchestrator: the `ValueError("Input text is empty.")` of
the two `summarize_*` entry points (the spec's `EmptyInput`), and the
chunker's configuration errors. -/
inductive CoreError where
  | emptyInput
  | chunk (e : ChunkError)
  deriving DecidableEq, Repr

/-- The fixed tail of the single-call prompt of
`summarize_text_to_markdown`. -/
def instruccionesTail : List Char :=
  sl "\"\"\"\n\nINSTRUCCIONES:\n- Generá la salida solicitada en Markdown.\n- No agregues saludos ni cierres.\n"

/-- The full prompt assembled by `summarize_text_to_markdown` for a given
(already stripped) text. -/
def fullPromptOf (text : List Char) (language topic : List Char)
    (roleKey roleCustom outputKey outputCustom : Option (List Char)) : List Char :=
  pyStrip (buildPrompt language topic roleKey roleCustom outputKey outputCustom
    ++ sl "\n\nTEXTO:\n\"\"\"" ++ pyStrip text ++ instruccionesTail)

/-- `summarize_text_to_markdown(...)` from `core.py`; `gen` is the external
text-completion collaborator (`generate_text`), the `model` identifier is
folded into `gen`. -/
def summarizeTextToMarkdown (gen : List Char → List Char) (text : List Char)
    (language topic : List Char)
    (roleKey roleCustom outputKey outputCustom : Option (List Char)) :
    Except CoreError (List Char) :=
  if (pyStrip text).isEmpty then .error .emptyInput
  else
    .ok (pyStrip (gen (fullPromptOf text language topic roleKey roleCustom
      outputKey outputCustom)))

/-- The per-chunk `output_custom` override built inside the loop of
`summarize_long_text_to_markdown` for chunk `i` of `total`. -/
def perChunkOutputCustom (outputCustom : Option (List Char)) (i total : Nat) :
    List Char :=
  (if (pyStrip (outputCustom.getD [])).isEmpty then pyStrip (outputCustom.getD [])
    else pyStrip (outputCustom.getD []) ++ sl "\n")
  ++ sl "\nIMPORTANTE: Esta es la parte " ++ natStr i ++ sl "/" ++ natStr total
    ++ sl ". Mantené la salida breve y estructurada (máx ~1–2 páginas)."

/-- The `"## Parte {i}/{total}\n\n{md_i}".strip()` element appended to
`parts` for chunk `i`. -/
def partHeader (i total : Nat) (md : List Char) : List Char :=
  pyStrip (sl "## Parte " ++ natStr i ++ sl "/" ++ natStr total ++ sl "\n\n" ++ md)

/-- The per-chunk loop of `summarize_long_text_to_markdown`: chunk `i` of
`total` is summarized with the overridden `output_custom` and prefixed with
its part header.  A failure at any chunk aborts the whole run. -/
def buildLongParts (gen : List Char → List Char) (language topic : List Char)
    (roleKey roleCustom outputKey outputCustom : Option (List Char))
    (total : Nat) : Nat → List (List Char) → Except CoreError (List (List Char))
  | _, [] => .ok []
  | i, ch :: rest =>
      match summarizeTextToMarkdown gen ch language topic roleKey roleCustom
        outputKey (some (perChunkOutputCustom outputCustom i total)) with
      | .error e => .error e
      | .ok md =>
          match buildLongParts gen language topic roleKey roleCustom outputKey
            outputCustom total (i + 1) rest with
          | .error e => .error e
          | .ok ps => .ok (partHeader i total md :: ps)

/-- The chunker invocation of `summarize_long_text_to_markdown`: the
stripped input text is chunked with the caller's `chunk_size_chars` /
`overlap_chars`, whose defaults are the source's defaults. -/
def longChunksOf (text : List Char)
    (chunkSizeChars : Int := 10000) (overlapChars : Int := 0) :
    Except ChunkError (List (List Char)) :=
  chunkText (pyStrip text) chunkSizeChars overlapChars

/-- `summarize_long_text_to_markdown(...)` from `core.py`.  The defaults of
`chunk_size_chars` and `overlap_chars` are the source's defaults. -/
def summarizeLongTextToMarkdown (gen : List Char → List Char) (text : List Char)
    (language topic : List Char)
    (roleKey roleCustom outputKey outputCustom : Option (List Char))
    (chunkSizeChars : Int := 10000) (overlapChars : Int := 0) :
    Except CoreError (List Char) :=
  if (pyStrip text).isEmpty then .error .emptyInput
  else
    match longChunksOf text chunkSizeChars overlapChars with
    | .error e => .error (.chunk e)
    | .ok chunks =>
        if chunks.isEmpty then .ok []
        else
          match buildLongParts gen language topic roleKey roleCustom outputKey
            outputCustom chunks.length 1 chunks with
          | .error e => .error e
          | .ok parts => .ok (pyStrip (List.intercalate (sl "\n\n---\n\n") parts))

/-! ## Markdown renderer (`pdf_export.py`) -/

/-- `esc(s)` from `pdf_export.py`: escape `&`, `<`, `>` (in this order, so
the ampersands introduced by `&lt;` / `&gt;` are not re-escaped). -/
def esc (s : List Char) : List Char :=
  pyReplace (sl ">") (sl "&gt;")
    (pyReplace (sl "<") (sl "&lt;")
      (pyReplace (sl "&") (sl "&amp;") s))

/-- The `@@CODE{k}@@` placeholder used while code spans are extracted. -/
def placeholder (k : Nat) : List Char := sl "@@CODE" ++ natStr k ++ sl "@@"

/-- The scan of `re.sub(r"`([^`]+)`", _code_repl, s)`: leftmost-first
matches of a backtick, one or more non-backticks, and a closing backtick
are replaced by numbered placeholders while the span contents are
collected in order.  `k` is the number of spans already collected; fuel
`s.length` suffices since every step consumes at least one character. -/
def codeSubGo : Nat → Nat → List Char → List Char × List (List Char)
  | _, _, [] => ([], [])
  | 0, _, s => (s, [])
  | fuel + 1, k, c :: rest =>
      if c = '`' then
        let content := rest.takeWhile (fun d => d ≠ '`')
        if content.isEmpty then
          let r := codeSubGo fuel k rest
          (c :: r.1, r.2)
        else if (rest.drop content.length).isEmpty then
          let r := codeSubGo fuel k rest
          (c :: r.1, r.2)
        else
          let r := codeSubGo fuel (k + 1) (rest.drop (content.length + 1))
          (placeholder k ++ r.1, content :: r.2)
      else
        let r := codeSubGo fuel k rest
        (c :: r.1, r.2)

/-- Step 1 of `md_inline_to_rl`: extract inline code spans. -/
def codeSub (s : List Char) : List Char × List (List Char) :=
  codeSubGo s.length 0 s

/-- The scan of `re.sub(r"\*\*([^*]+)\*\*", r"<b>\1</b>", s)`. -/
def boldSubGo : Nat → List Char → List Char
  | _, [] => []
  | 0, s => s
  | fuel + 1, c :: rest =>
      if c = '*' ∧ rest.head? = some '*' then
        if (rest.tail.takeWhile (fun d => d ≠ '*')).isEmpty then
          '*' :: boldSubGo fuel rest
        else if (rest.tail.drop (rest.tail.takeWhile (fun d => d ≠ '*')).length).take 2
            = ['*', '*'] then
          sl "<b>" ++ rest.tail.takeWhile (fun d => d ≠ '*') ++ sl "</b>" ++
            boldSubGo fuel
              (rest.tail.drop ((rest.tail.takeWhile (fun d => d ≠ '*')).length + 2))
        else
          '*' :: boldSubGo fuel rest
      else c :: boldSubGo fuel rest

/-- Step 2 of `md_inline_to_rl`: bold. -/
def boldSub (s : List Char) : List Char := boldSubGo s.length s

/-- The scan of `re.sub(r"(?<!\*)\*([^*]+)\*(?!\*)", r"<i>\1</i>", s)`:
`prev` is the character preceding the current position in the original
string (`none` at the start), used for the lookbehind. -/
def italicSubGo : Nat → Option Char → List Char → List Char
  | _, _, [] => []
  | 0, _, s => s
  | fuel + 1, prev, c :: rest =>
      if c = '*' then
        if prev = some '*' then '*' :: italicSubGo fuel (some '*') rest
        else if (rest.takeWhile (fun d => d ≠ '*')).isEmpty then
          '*' :: italicSubGo fuel (some '*') rest
        else if (rest.drop (rest.takeWhile (fun d => d ≠ '*')).length).head? = some '*' &&
            ((rest.drop ((rest.takeWhile (fun d => d ≠ '*')).length + 1)).head? ≠ some '*') then
          sl "<i>" ++ rest.takeWhile (fun d => d ≠ '*') ++ sl "</i>" ++
            italicSubGo fuel (some '*')
              (rest.drop ((rest.takeWhile (fun d => d ≠ '*')).length + 1))
        else '*' :: italicSubGo fuel (some '*') rest
      else c :: italicSubGo fuel (some c) rest

/-- Step 3 of `md_inline_to_rl`: italic. -/
def italicSub (s : List Char) : List Char := italicSubGo s.length none s

/-- Step 4 of `md_inline_to_rl`: restore the code spans, each wrapped in a
fixed-width (`Courier`) font tag, with no further formatting inside. -/
def restoreCodeGo : List Char → Nat → List (List Char) → List Char
  | s, _, [] => s
  | s, i, code :: rest =>
      restoreCodeGo
        (pyReplace (placeholder i)
          (sl "<font face=\"Courier\">" ++ code ++ sl "</font>") s)
        (i + 1) rest

/-- `md_inline_to_rl(s)` from `pdf_export.py`: escape, extract code spans,
bold, italic, then restore the code spans. -/
def mdInlineToRl (s : List Char) : List Char :=
  let r := codeSub (esc s)
  restoreCodeGo (italicSub (boldSub r.1)) 0 r.2

/-- The bullet-glyph normalization applied to every (rstripped) line:
`s.replace("• ", "- ").replace("– ", "- ").replace("— ", "- ")`. -/
def replaceGlyphs (s : List Char) : List Char :=
  pyReplace (sl "— ") (sl "- ")
    (pyReplace (sl "– ") (sl "- ")
      (pyReplace (sl "• ") (sl "- ") s))

/-- A structural element appended to the `story` by
`markdown_to_pdf_bytes`: a heading of a given level, a justified body
paragraph, a bullet list, or a vertical spacer of a given height. -/
inductive RBlock where
  | heading (level : Nat) (text : List Char)
  | paragraph (text : List Char)
  | bulletList (items : List (List Char))
  | spacer (height : Nat)
  deriving DecidableEq, Repr

/-- `flush_bullets()`: emit the pending bullet lines (inline-formatted) as
one bullet-list block followed by a small spacer; nothing if no bullets
are pending. -/
def flushBullets (pending : List (List Char)) : List RBlock :=
  if pending.isEmpty then []
  else [.bulletList (pending.map mdInlineToRl), .spacer 8]

/-- The per-line classification loop of `markdown_to_pdf_bytes`, producing
the `story` block sequence. -/
def renderLines : List (List Char) → List (List Char) → List RBlock
  | pending, [] => flushBullets pending
  | pending, raw :: rest =>
      let line := pyStrip raw
      if line.isEmpty then
        flushBullets pending ++ (.spacer 10 :: renderLines [] rest)
      else if line = sl "---" then
        flushBullets pending ++ (.spacer 14 :: renderLines [] rest)
      else if (sl "- ").isPrefixOf line || (sl "* ").isPrefixOf line then
        renderLines (pending ++ [pyStrip (line.drop 2)]) rest
      else
        flushBullets pending ++
          (if (sl "# ").isPrefixOf line then [.heading 1 (mdInlineToRl (line.drop 2))]
           else if (sl "## ").isPrefixOf line then [.heading 2 (mdInlineToRl (line.drop 3))]
           else if (sl "### ").isPrefixOf line then [.heading 3 (mdInlineToRl (line.drop 4))]
           else if (sl "#### ").isPrefixOf line then [.heading 4 (mdInlineToRl (line.drop 5))]
           else if (sl "##### ").isPrefixOf line then [.heading 5 (mdInlineToRl (line.drop 6))]
           else if (sl "###### ").isPrefixOf line then [.heading 6 (mdInlineToRl (line.drop 7))]
           else [.paragraph (mdInlineToRl line)]) ++ renderLines [] rest

/-- The block sequence built by `markdown_to_pdf_bytes` before layout:
strip the document, split into lines, rstrip each line and normalize
bullet glyphs, then classify line by line. -/
def markdownToBlocks (md : List Char) : List RBlock :=
  renderLines []
    ((splitLines (pyStrip md)).map (fun ln => replaceGlyphs (pyRStrip ln)))

/-! ## Escaped-markup grammar

`Safe s` says `s` is a concatenation of plain characters (none of `&`,
`<`, `>`), the three escape entities, and the five markup tags inserted by
`md_inline_to_rl`.  In such a string every `<` / `>` belongs to an
inserted tag and every `&` starts an entity, which is exactly the sense in
which the output of the inline formatter "never yields unescaped markup
characters". -/
inductive Safe : List Char → Prop where
  | nil : Safe []
  | plain (c : Char) (rest : List Char) :
      c ≠ '&' → c ≠ '<' → c ≠ '>' → Safe rest → Safe (c :: rest)
  | entAmp (rest : List Char) : Safe rest →
      Safe ('&' :: 'a' :: 'm' :: 'p' :: ';' :: rest)
  | entLt (rest : List Char) : Safe rest →
      Safe ('&' :: 'l' :: 't' :: ';' :: rest)
  | entGt (rest : List Char) : Safe rest →
      Safe ('&' :: 'g' :: 't' :: ';' :: rest)
  | tagBOpen (rest : List Char) : Safe rest →
      Safe ('<' :: 'b' :: '>' :: rest)
  | tagBClose (rest : List Char) : Safe rest →
      Safe ('<' :: '/' :: 'b' :: '>' :: rest)
  | tagIOpen (rest : List Char) : Safe rest →
      Safe ('<' :: 'i' :: '>' :: rest)
  | tagIClose (rest : List Char) : Safe rest →
      Safe ('<' :: '/' :: 'i' :: '>' :: rest)
  | tagFontOpen (rest : List Char) : Safe rest →
      Safe ('<' :: 'f' :: 'o' :: 'n' :: 't' :: ' ' :: 'f' :: 'a' :: 'c' :: 'e'
        :: '=' :: '"' :: 'C' :: 'o' :: 'u' :: 'r' :: 'i' :: 'e' :: 'r' :: '"'
        :: '>' :: rest)
  | tagFontClose (rest : List Char) : Safe rest →
      Safe ('<' :: '/' :: 'f' :: 'o' :: 'n' :: 't' :: '>' :: rest)

/-- A character that occurs in none of the multi-character units of the
`Safe` grammar (entities and tags); a `Safe` string can be split at any
occurrence of such a character. -/
def unitFree (c : Char) : Prop :=
  c ∉ sl "&amp;" ∧ c ∉ sl "&lt;" ∧ c ∉ sl "&gt;" ∧
  c ∉ sl "<b>" ∧ c ∉ sl "</b>" ∧ c ∉ sl "<i>" ∧ c ∉ sl "</i>" ∧
  c ∉ sl "<font face=\"Courier\">" ∧ c ∉ sl "</font>"

instance unitFreeDec (c : Char) : Decidable (unitFree c) := by
  unfold unitFree
  infer_instance

/-! ## Claim-level properties

The following definitions transcribe, for refutation purposes, properties
asserted by the specification (not by the source); each is compared
against the behaviour of the definitions above. -/

/-- The window description asserted by claim C2 for `chunk_text` at valid
parameters: the empty text gives no chunks; with `overlap = 0` the chunks
are the `⌈n / chunk_size⌉` consecutive windows, all full-size except
possibly the final one; with `overlap > 0` the chunks are the clipped
windows at starts `0, step, 2·step, …` and every window overlaps its
successor by exactly `overlap` characters, except possibly the last
(transcribed as: every window with a successor that is itself not the
final window). -/
def c2ClaimedParts (text : List Char) (chunkSize overlap : Int)
    (parts : List (List Char)) : Prop :=
  (text.isEmpty → parts = []) ∧
  (overlap = 0 →
    parts.length = (text.length + chunkSize.toNat - 1) / chunkSize.toNat ∧
    (∀ i (h : i < parts.length),
      parts.get ⟨i, h⟩ = pySlice text (i * chunkSize.toNat) chunkSize.toNat) ∧
    (∀ i (h : i < parts.length), i + 1 < parts.length →
      (parts.get ⟨i, h⟩).length = chunkSize.toNat)) ∧
  (0 < overlap →
    (∀ i (h : i < parts.length),
      parts.get ⟨i, h⟩ =
        pySlice text (i * (chunkSize.toNat - overlap.toNat)) chunkSize.toNat) ∧
    (∀ i (h : i < parts.length - 2),
      min (i * (chunkSize.toNat - overlap.toNat) + chunkSize.toNat) text.length
        - (i + 1) * (chunkSize.toNat - overlap.toNat) = overlap.toNat))

instance c2ClaimedPartsDec (text : List Char) (chunkSize overlap : Int)
    (parts : List (List Char)) : Decidable (c2ClaimedParts text chunkSize overlap parts) := by
  unfold c2ClaimedParts
  infer_instance

/-- Claim C2 additionally asserts that `chunk_text` succeeds at valid
parameters and returns windows as described by `c2ClaimedParts`. -/
def c2Claimed (text : List Char) (chunkSize overlap : Int) : Prop :=
  ∃ parts, chunkText text chunkSize overlap = .ok parts ∧
    c2ClaimedParts text chunkSize overlap parts

instance c2ClaimedDec (text : List Char) (chunkSize overlap : Int) :
    Decidable (c2Claimed text chunkSize overlap) := by
  unfold c2Claimed
  cases h : chunkText text chunkSize overlap with
  | error e =>
      apply isFalse
      rintro ⟨p, hp, _⟩
      exact Except.noConfusion hp
  | ok parts =>
      by_cases hp : c2ClaimedParts text chunkSize overlap parts
      · exact isTrue ⟨parts, rfl, hp⟩
      · apply isFalse
        rintro ⟨q, hq, hcq⟩
        injection hq with hq2
        subst hq2
        exact hp hcq

/-- The chunk-size list asserted by claim C3 for a 25,000-character text at
`chunk_size_chars = 10000`, `overlap_chars = 500`. -/
def c3ClaimedSizes (text : List Char) : Prop :=
  ∃ chunks, chunkText text 10000 500 = .ok chunks ∧
    chunks.map List.length = [10000, 10000, 5000]

/-! ## Chunker lemmas -/

theorem chunksNoOverlap_flatten (text : List Char) (cs : Nat) :
    ∀ count bottom,
      (chunksNoOverlap text cs count bottom).flatten =
        (text.drop bottom).take (count * cs) := by
  intro count
  induction count with
  | zero => intro bottom; simp [chunksNoOverlap]
  | succ k ih =>
      intro bottom
      have hdd : (text.drop bottom).drop cs = text.drop (bottom + cs) :=
        List.drop_drop ..
      simp only [chunksNoOverlap, List.flatten_cons, ih (bottom + cs), pySlice]
      rw [← hdd, ← List.take_add]
      have : cs + k * cs = (k + 1) * cs := by ring
      rw [this]

theorem ceil_mul_ge (n cs : Nat) (hcs : 0 < cs) : n ≤ ((n + cs - 1) / cs) * cs := by
  have h := Nat.div_add_mod (n + cs - 1) cs
  have hlt : (n + cs - 1) % cs < cs := Nat.mod_lt _ hcs
  rw [Nat.mul_comm]
  omega

/-- Reconstruction for the `overlap = 0` branch. -/
theorem reconstruct_chunksNoOverlap (text : List Char) (cs : Nat) (hcs : 0 < cs)
    (hn : text.length ≠ 0) :
    reconstruct 0 (chunksNoOverlap text cs ((text.length + cs - 1) / cs) 0) = text := by
  have hflat :
      (chunksNoOverlap text cs ((text.length + cs - 1) / cs) 0).flatten =
        text.take (((text.length + cs - 1) / cs) * cs) := by
    simpa using chunksNoOverlap_flatten text cs ((text.length + cs - 1) / cs) 0
  have htake : text.take (((text.length + cs - 1) / cs) * cs) = text :=
    List.take_of_length_le (ceil_mul_ge text.length cs hcs)
  have hcount : 0 < (text.length + cs - 1) / cs := by
    apply Nat.div_pos <;> omega
  obtain ⟨k, hk⟩ : ∃ k, (text.length + cs - 1) / cs = k + 1 :=
    ⟨(text.length + cs - 1) / cs - 1, by omega⟩
  rw [hk] at hflat htake ⊢
  simp only [chunksNoOverlap, reconstruct]
  simp only [chunksNoOverlap, List.flatten_cons] at hflat
  rw [show List.map (List.drop 0) (chunksNoOverlap text cs k (0 + cs)) =
        List.map id (chunksNoOverlap text cs k (0 + cs)) from
      List.map_congr_left (fun a _ => List.drop_zero a), List.map_id]
  rw [hflat]
  exact htake

/-- Reconstruction for the `overlap > 0` branch: dropping the first `ov`
characters of every window starting at `start` and flattening yields the
text from position `start + ov` on, provided the fuel allows the loop to
run to completion. -/
theorem chunksOverlap_trim (text : List Char) (cs ov : Nat) (hov : 0 < ov)
    (hlt : ov < cs) :
    ∀ fuel start, text.length ≤ start + fuel * (cs - ov) →
      ((chunksOverlap text cs (cs - ov) fuel start).map (List.drop ov)).flatten =
        text.drop (start + ov) := by
  intro fuel
  induction fuel with
  | zero =>
      intro start hfuel
      simp only [chunksOverlap, List.map_nil, List.flatten_nil]
      rw [eq_comm, List.drop_eq_nil_iff]
      omega
  | succ f ih =>
      intro start hfuel
      by_cases hs : start < text.length
      · simp only [chunksOverlap, hs, if_true, List.map_cons, List.flatten_cons]
        have hrest : text.length ≤ (start + (cs - ov)) + f * (cs - ov) := by
          have : start + (f + 1) * (cs - ov) = (start + (cs - ov)) + f * (cs - ov) := by
            ring
          omega
        rw [ih (start + (cs - ov)) hrest]
        have h1 : (pySlice text start cs).drop ov =
            ((text.drop start).drop ov).take (cs - ov) := by
          simp [pySlice, List.drop_take]
        have h2 : (text.drop start).drop ov = text.drop (start + ov) :=
          List.drop_drop ..
        have h3 : start + (cs - ov) + ov = (start + ov) + (cs - ov) := by omega
        rw [h1, h2, h3]
        exact List.drop_take_append_drop text (start + ov) (cs - ov)
      · simp only [chunksOverlap, hs, if_false, List.map_nil, List.flatten_nil]
        rw [eq_comm, List.drop_eq_nil_iff]
        omega

/-- The `overlap = 0` loop produces exactly the consecutive windows
`text[bottom + i*cs : bottom + (i+1)*cs]` for `i < count`. -/
theorem chunksNoOverlap_eq_map (text : List Char) (cs : Nat) :
    ∀ count bottom,
      chunksNoOverlap text cs count bottom =
        (List.range count).map (fun i => pySlice text (bottom + i * cs) cs) := by
  intro count
  induction count with
  | zero => intro bottom; simp [chunksNoOverlap]
  | succ k ih =>
      intro bottom
      rw [List.range_succ_eq_map]
      simp only [chunksNoOverlap, List.map_cons, List.map_map]
      refine congrArg₂ List.cons ?_ ?_
      · simp [pySlice]
      · rw [ih (bottom + cs)]
        apply List.map_congr_left
        intro i _
        simp only [Function.comp]
        congr 1
        simp only [Nat.succ_eq_add_one]
        ring

/-- The `overlap > 0` loop produces exactly the windows
`text[start + i*step : min(start + i*step + cs, n)]` for
`i < ⌈(n - start) / step⌉`, given enough fuel. -/
theorem chunksOverlap_eq_map (text : List Char) (cs step : Nat) (hstep : 0 < step) :
    ∀ fuel start, text.length ≤ start + fuel * step →
      chunksOverlap text cs step fuel start =
        (List.range ((text.length - start + step - 1) / step)).map
          (fun i => pySlice text (start + i * step) cs) := by
  intro fuel
  induction fuel with
  | zero =>
      intro start hfuel
      have h0 : text.length - start = 0 := by omega
      rw [h0]
      have : (0 + step - 1) / step = 0 := Nat.div_eq_of_lt (by omega)
      rw [this]
      simp [chunksOverlap]
  | succ f ih =>
      intro start hfuel
      by_cases hs : start < text.length
      · have hcount : (text.length - start + step - 1) / step =
            (text.length - (start + step) + step - 1) / step + 1 := by
          by_cases hle : text.length - start ≤ step
          · have h1 : (text.length - start + step - 1) / step = 1 := by
              apply Nat.div_eq_of_lt_le
              · omega
              · omega
            have h2 : text.length - (start + step) = 0 := by omega
            rw [h1, h2]
            have : (0 + step - 1) / step = 0 := Nat.div_eq_of_lt (by omega)
            omega
          · have h3 : text.length - start + step - 1 =
                (text.length - (start + step) + step - 1) + step := by omega
            rw [h3, Nat.add_div_right _ hstep]
        simp only [chunksOverlap, hs, if_true]
        rw [hcount, List.range_succ_eq_map]
        simp only [List.map_cons, List.map_map]
        refine congrArg₂ List.cons ?_ ?_
        · simp [pySlice]
        · have hfuel2 : text.length ≤ (start + step) + f * step := by
            have hexp : (f + 1) * step = step + f * step := by ring
            omega
          rw [ih (start + step) hfuel2]
          apply List.map_congr_left
          intro i _
          simp only [Function.comp]
          congr 1
          simp only [Nat.succ_eq_add_one]
          ring
      · have h0 : text.length - start = 0 := by omega
        rw [h0]
        have : (0 + step - 1) / step = 0 := Nat.div_eq_of_lt (by omega)
        rw [this]
        simp [chunksOverlap, hs]

/-- Reconstruction for the `overlap > 0` branch, whole-loop form. -/
theorem reconstruct_chunksOverlap (text : List Char) (cs ov : Nat) (hov : 0 < ov)
    (hlt : ov < cs) (hn : 0 < text.length) :
    reconstruct ov (chunksOverlap text cs (cs - ov) text.length 0) = text := by
  obtain ⟨f, hf⟩ : ∃ f, text.length = f + 1 := ⟨text.length - 1, by omega⟩
  have hstep : 0 < cs - ov := by omega
  have hfuel : text.length ≤ (0 + (cs - ov)) + f * (cs - ov) := by
    have h2 : f * 1 ≤ f * (cs - ov) := Nat.mul_le_mul_left f hstep
    omega
  rw [hf]
  simp only [chunksOverlap]
  rw [if_pos hn]
  simp only [reconstruct]
  rw [chunksOverlap_trim text cs ov hov hlt f (0 + (cs - ov)) hfuel]
  have hcs : 0 + (cs - ov) + ov = cs := by omega
  rw [hcs]
  simpa [pySlice] using List.take_append_drop cs text

/-! ## Python string lemmas -/

theorem dropWhile_eq_self_of_head (p : Char → Bool) (l : List Char)
    (h : ∀ c, l.head? = some c → p c = false) : l.dropWhile p = l := by
  cases l with
  | nil => rfl
  | cons c t => simp [List.dropWhile_cons, h c rfl]

theorem pyLStrip_eq_self (s : List Char)
    (h : ∀ c, s.head? = some c → pyIsSpace c = false) : pyLStrip s = s :=
  dropWhile_eq_self_of_head pyIsSpace s h

theorem pyRStrip_eq_self (s : List Char)
    (h : ∀ c, s.getLast? = some c → pyIsSpace c = false) : pyRStrip s = s := by
  unfold pyRStrip
  rw [dropWhile_eq_self_of_head pyIsSpace s.reverse
    (fun c hc => h c (by rwa [List.head?_reverse] at hc)), List.reverse_reverse]

theorem pyStrip_eq_self (s : List Char)
    (hh : ∀ c, s.head? = some c → pyIsSpace c = false)
    (hl : ∀ c, s.getLast? = some c → pyIsSpace c = false) : pyStrip s = s := by
  unfold pyStrip
  rw [pyRStrip_eq_self s hl, pyLStrip_eq_self s hh]

theorem pyStrip_eq_self_of_all (s : List Char)
    (h : ∀ c ∈ s, pyIsSpace c = false) : pyStrip s = s :=
  pyStrip_eq_self s (fun c hc => h c (List.mem_of_mem_head? hc))
    (fun c hc => h c (List.mem_reverse.mp
      (List.mem_of_mem_head? (by rwa [List.head?_reverse]))))

theorem pyRStrip_cons (c : Char) (s : List Char) (hc : pyIsSpace c = false) :
    pyRStrip (c :: s) = c :: pyRStrip s := by
  unfold pyRStrip
  rw [show (c :: s).reverse = s.reverse ++ [c] by simp]
  rw [List.dropWhile_append]
  by_cases he : (s.reverse.dropWhile pyIsSpace).isEmpty
  · rw [if_pos he, List.isEmpty_iff.mp he]
    simp [List.dropWhile_cons, hc]
  · rw [if_neg he]
    simp

theorem pyStrip_cons (c : Char) (s : List Char) (hc : pyIsSpace c = false) :
    pyStrip (c :: s) = c :: pyRStrip s := by
  unfold pyStrip
  rw [pyRStrip_cons c s hc]
  exact pyLStrip_eq_self _ (fun d hd => by
    rw [List.head?_cons] at hd
    cases hd
    exact hc)

theorem head?_dropWhile_not (p : Char → Bool) (l : List Char) :
    ∀ c, (l.dropWhile p).head? = some c → p c = false := by
  induction l with
  | nil => intro c hc; simp at hc
  | cons d t ih =>
      intro c hc
      rw [List.dropWhile_cons] at hc
      by_cases hd : p d
      · rw [if_pos hd] at hc
        exact ih c hc
      · rw [if_neg hd] at hc
        rw [List.head?_cons] at hc
        cases hc
        exact Bool.not_eq_true _ ▸ (by simpa using hd)

theorem getLast?_pyRStrip_not_space (s : List Char) :
    ∀ c, (pyRStrip s).getLast? = some c → pyIsSpace c = false := by
  intro c hc
  unfold pyRStrip at hc
  rw [List.getLast?_reverse] at hc
  exact head?_dropWhile_not pyIsSpace s.reverse c hc

theorem getLast?_dropWhile_of_some (p : Char → Bool) (l : List Char) (c : Char)
    (h : (l.dropWhile p).getLast? = some c) : l.getLast? = some c := by
  obtain ⟨pre, hpre⟩ := @List.dropWhile_suffix Char l p
  have hne : l.dropWhile p ≠ [] := by
    intro h0
    rw [h0] at h
    simp at h
  rw [← hpre, List.getLast?_append_of_ne_nil pre hne]
  exact h

theorem getLast?_pyStrip_not_space (s : List Char) :
    ∀ c, (pyStrip s).getLast? = some c → pyIsSpace c = false := by
  intro c hc
  unfold pyStrip pyLStrip at hc
  exact getLast?_pyRStrip_not_space s c
    (getLast?_dropWhile_of_some pyIsSpace (pyRStrip s) c hc)

/-! ## Evaluation on replicated texts -/

theorem pySlice_replicate (n : Nat) (a : Char) (s len : Nat) :
    pySlice (List.replicate n a) s len = List.replicate (min len (n - s)) a := by
  simp [pySlice, List.drop_replicate, List.take_replicate]

theorem pyStrip_replicate_a (n : Nat) :
    pyStrip (List.replicate n 'a') = List.replicate n 'a' :=
  pyStrip_eq_self_of_all _ (fun c hc => by
    rw [List.eq_of_mem_replicate hc]; rfl)

/-- `chunk_text` on an `n`-character text with `chunk_size = 10000`,
`overlap = 500` produces the clipped windows at starts `0, 9500, 19000, …`. -/
theorem chunkText_replicate_500 (n : Nat) (hn : n ≠ 0) :
    chunkText (List.replicate n 'a') 10000 500 =
      .ok ((List.range ((n + 9499) / 9500)).map
        (fun i => List.replicate (min 10000 (n - i * 9500)) 'a')) := by
  unfold chunkText
  rw [if_neg (by omega), if_neg (by omega), if_neg (by omega),
    if_neg (by simpa using hn), if_neg (by decide)]
  have hstep : (10000 : Int).toNat - (500 : Int).toNat = 9500 := rfl
  have hlen : (List.replicate n 'a').length = n := List.length_replicate ..
  rw [hstep, hlen]
  rw [chunksOverlap_eq_map _ _ _ (by omega) n 0
    (by have := Nat.mul_le_mul_left n (show 1 ≤ 9500 by omega); omega)]
  congr 1
  rw [hlen]
  have hcount : n - 0 + 9500 - 1 = n + 9499 := by omega
  rw [hcount]
  apply List.map_congr_left
  intro i _
  rw [pySlice_replicate]
  congr 1
  omega

/-- `chunk_text` on an `n`-character text with `chunk_size = 10000`,
`overlap = 0` produces the consecutive windows at starts `0, 10000, …`. -/
theorem chunkText_replicate_0 (n : Nat) (hn : n ≠ 0) :
    chunkText (List.replicate n 'a') 10000 0 =
      .ok ((List.range ((n + 9999) / 10000)).map
        (fun i => List.replicate (min 10000 (n - i * 10000)) 'a')) := by
  unfold chunkText
  rw [if_neg (by omega), if_neg (by omega), if_neg (by omega),
    if_neg (by simpa using hn), if_pos (by decide)]
  have h4 : (10000 : Int).toNat = 10000 := rfl
  have hlen : (List.replicate n 'a').length = n := List.length_replicate ..
  rw [h4, hlen]
  have hcount : n + 10000 - 1 = n + 9999 := by omega
  rw [hcount, chunksNoOverlap_eq_map]
  congr 1
  apply List.map_congr_left
  intro i _
  rw [pySlice_replicate]
  congr 1
  omega

/-! ## Claims -/

/-- **C1.** For every text and every `chunk_size > 0` and
`0 ≤ overlap < chunk_size`, concatenating the sequence returned by
`chunk_text` in index order, after dropping the first `overlap` characters
of every chunk except the first, yields exactly the original text. -/
theorem c1_chunkText_reconstruct (text : List Char) (chunkSize overlap : Int)
    (hcs : 0 < chunkSize) (hov : 0 ≤ overlap) (hlt : overlap < chunkSize) :
    ∃ parts, chunkText text chunkSize overlap = .ok parts ∧
      reconstruct overlap.toNat parts = text := by
  unfold chunkText
  rw [if_neg (by omega), if_neg (by omega), if_neg (by omega)]
  by_cases hn : text.length = 0
  · rw [if_pos hn]
    refine ⟨[], rfl, ?_⟩
    have htext : text = [] := List.length_eq_zero.mp hn
    simp [htext, reconstruct]
  · rw [if_neg hn]
    by_cases ho : overlap.toNat = 0
    · rw [if_pos ho]
      refine ⟨_, rfl, ?_⟩
      rw [ho]
      exact reconstruct_chunksNoOverlap text chunkSize.toNat (by omega) hn
    · rw [if_neg ho]
      exact ⟨_, rfl, reconstruct_chunksOverlap text chunkSize.toNat overlap.toNat
        (by omega) (by omega) (by omega)⟩

/-- Witness for C1 at `text = "abcde"`, `chunk_size = 4`, `overlap = 3`. -/
theorem c1_chunkText_reconstruct_witness :
    (0 : Int) < 4 ∧ (0 : Int) ≤ 3 ∧ (3 : Int) < 4 ∧
      ∃ parts, chunkText (sl "abcde") 4 3 = .ok parts ∧
        reconstruct (3 : Int).toNat parts = sl "abcde" :=
  ⟨by decide, by decide, by decide,
    c1_chunkText_reconstruct (sl "abcde") 4 3 (by decide) (by decide) (by decide)⟩

/-- **C6.** For every text, `chunk_text` with `chunk_size ≤ 0` or
`overlap < 0` or `overlap ≥ chunk_size` fails with an `InvalidArgument`
error, and the failure is independent of the text argument. -/
theorem c6_chunkText_invalid (text other : List Char) (chunkSize overlap : Int)
    (h : chunkSize ≤ 0 ∨ overlap < 0 ∨ chunkSize ≤ overlap) :
    (∃ msg, chunkText text chunkSize overlap = .error (.invalidArgument msg)) ∧
      chunkText text chunkSize overlap = chunkText other chunkSize overlap := by
  unfold chunkText
  by_cases h1 : chunkSize ≤ 0
  · rw [if_pos h1, if_pos h1]
    exact ⟨⟨_, rfl⟩, rfl⟩
  · rw [if_neg h1, if_neg h1]
    by_cases h2 : overlap < 0
    · rw [if_pos h2, if_pos h2]
      exact ⟨⟨_, rfl⟩, rfl⟩
    · have h3 : chunkSize ≤ overlap := by
        rcases h with h | h | h
        · omega
        · omega
        · exact h
      rw [if_neg h2, if_neg h2, if_pos h3, if_pos h3]
      exact ⟨⟨_, rfl⟩, rfl⟩

/-- Witness for C6 at `chunk_size = 0`, `overlap = 0` and two different
texts. -/
theorem c6_chunkText_invalid_witness :
    (∃ msg, chunkText (sl "ab") 0 0 = .error (.invalidArgument msg)) ∧
      chunkText (sl "ab") 0 0 = chunkText (sl "xyz") 0 0 :=
  c6_chunkText_invalid (sl "ab") (sl "xyz") 0 0 (Or.inl (by decide))

/-- **C2 (counterexample).** The window description of claim C2 fails at
`text = "abcde"`, `chunk_size = 4`, `overlap = 3`: the chunks are
`["abcd","bcde","cde","de","e"]` and the third window overlaps its
successor by only 2 characters, though neither is the final window. -/
theorem c2_counterexample : ¬ c2Claimed (sl "abcde") 4 3 := by decide

/-- **C2 (amended).** As claim C2, but a window is guaranteed to overlap
its successor by exactly `overlap` characters only when the window is not
clipped by the end of the text (`start + chunk_size ≤ len(text)`); clipped
windows may overlap their successor by less. -/
theorem c2_chunkText_windows (text : List Char) (chunkSize overlap : Int)
    (hcs : 0 < chunkSize) (hov : 0 ≤ overlap) (hlt : overlap < chunkSize) :
    ∃ parts, chunkText text chunkSize overlap = .ok parts ∧
      (text.isEmpty → parts = []) ∧
      (overlap = 0 →
        parts.length = (text.length + chunkSize.toNat - 1) / chunkSize.toNat ∧
        (∀ i (h : i < parts.length),
          parts.get ⟨i, h⟩ = pySlice text (i * chunkSize.toNat) chunkSize.toNat) ∧
        (∀ i (h : i < parts.length), i + 1 < parts.length →
          (parts.get ⟨i, h⟩).length = chunkSize.toNat)) ∧
      (0 < overlap →
        parts.length = (text.length + (chunkSize.toNat - overlap.toNat) - 1)
          / (chunkSize.toNat - overlap.toNat) ∧
        (∀ i (h : i < parts.length),
          parts.get ⟨i, h⟩ =
            pySlice text (i * (chunkSize.toNat - overlap.toNat)) chunkSize.toNat) ∧
        (∀ i (h : i < parts.length), i + 1 < parts.length →
          i * (chunkSize.toNat - overlap.toNat) + chunkSize.toNat ≤ text.length →
          min (i * (chunkSize.toNat - overlap.toNat) + chunkSize.toNat) text.length
            - (i + 1) * (chunkSize.toNat - overlap.toNat) = overlap.toNat)) := by
  unfold chunkText
  rw [if_neg (by omega), if_neg (by omega), if_neg (by omega)]
  by_cases hn : text.length = 0
  · rw [if_pos hn]
    refine ⟨[], rfl, fun _ => rfl, fun _ => ?_, fun h0 => ?_⟩
    · refine ⟨?_, fun i h => absurd h (by simp), fun i h => absurd h (by simp)⟩
      rw [hn, List.length_nil, eq_comm]
      exact Nat.div_eq_of_lt (by omega)
    · refine ⟨?_, fun i h => absurd h (by simp), fun i h => absurd h (by simp)⟩
      rw [hn, List.length_nil]
      exact (Nat.div_eq_of_lt (by omega)).symm
  · rw [if_neg hn]
    by_cases ho : overlap.toNat = 0
    · rw [if_pos ho]
      have hov0 : overlap = 0 := by omega
      refine ⟨_, rfl, ?_, fun _ => ?_, fun h0 => absurd h0 (by omega)⟩
      · intro he
        rw [List.isEmpty_iff] at he
        exact absurd (by rw [he]; rfl) hn
      · rw [chunksNoOverlap_eq_map]
        refine ⟨by simp, fun i h => ?_, fun i h hsucc => ?_⟩
        · rw [List.get_eq_getElem]
          simp [List.getElem_map, List.getElem_range]
        · rw [List.get_eq_getElem]
          simp only [List.getElem_map, List.getElem_range, pySlice,
            List.length_take, List.length_drop]
          have hlen := h
          rw [List.length_map, List.length_range] at hlen hsucc
          have h1 : ((text.length + chunkSize.toNat - 1) / chunkSize.toNat)
              * chunkSize.toNat ≤ text.length + chunkSize.toNat - 1 :=
            Nat.div_mul_le_self _ _
          have h2 : (i + 2) * chunkSize.toNat ≤
              ((text.length + chunkSize.toNat - 1) / chunkSize.toNat) * chunkSize.toNat :=
            Nat.mul_le_mul_right _ (by omega)
          have h3 : (i + 2) * chunkSize.toNat
              = i * chunkSize.toNat + 2 * chunkSize.toNat := by ring
          have h4 : 0 + i * chunkSize.toNat = i * chunkSize.toNat := by omega
          rw [h4]
          omega
    · rw [if_neg ho]
      have hstep : 0 < chunkSize.toNat - overlap.toNat := by omega
      have hfuel : text.length ≤ 0 + text.length * (chunkSize.toNat - overlap.toNat) := by
        have := Nat.mul_le_mul_left text.length hstep
        omega
      rw [chunksOverlap_eq_map text chunkSize.toNat
        (chunkSize.toNat - overlap.toNat) hstep text.length 0 hfuel]
      refine ⟨_, rfl, ?_, fun h0 => absurd (by omega : overlap.toNat = 0) ho, fun _ => ?_⟩
      · intro he
        rw [List.isEmpty_iff] at he
        exact absurd (by rw [he]; rfl) hn
      · refine ⟨by simp, fun i h => ?_, fun i h hsucc hle => ?_⟩
        · rw [List.get_eq_getElem]
          simp [List.getElem_map, List.getElem_range]
        · rw [min_eq_left hle]
          have h5 : (i + 1) * (chunkSize.toNat - overlap.toNat)
              = i * (chunkSize.toNat - overlap.toNat)
                + (chunkSize.toNat - overlap.toNat) := by ring
          omega

/-- Witness for the amended C2 at `text = "abcdefghij"`, `chunk_size = 5`,
`overlap = 3`. -/
theorem c2_chunkText_windows_witness :
    (0 : Int) < 5 ∧ (0 : Int) ≤ 3 ∧ (3 : Int) < 5 ∧
      ∃ parts, chunkText (sl "abcdefghij") 5 3 = .ok parts ∧
        ((sl "abcdefghij").isEmpty → parts = []) ∧
        ((3 : Int) = 0 →
          parts.length = ((sl "abcdefghij").length + (5 : Int).toNat - 1) / (5 : Int).toNat ∧
          (∀ i (h : i < parts.length),
            parts.get ⟨i, h⟩ = pySlice (sl "abcdefghij") (i * (5 : Int).toNat) (5 : Int).toNat) ∧
          (∀ i (h : i < parts.length), i + 1 < parts.length →
            (parts.get ⟨i, h⟩).length = (5 : Int).toNat)) ∧
        ((0 : Int) < 3 →
          parts.length = ((sl "abcdefghij").length + ((5 : Int).toNat - (3 : Int).toNat) - 1)
            / ((5 : Int).toNat - (3 : Int).toNat) ∧
          (∀ i (h : i < parts.length),
            parts.get ⟨i, h⟩ =
              pySlice (sl "abcdefghij") (i * ((5 : Int).toNat - (3 : Int).toNat)) (5 : Int).toNat) ∧
          (∀ i (h : i < parts.length), i + 1 < parts.length →
            i * ((5 : Int).toNat - (3 : Int).toNat) + (5 : Int).toNat ≤ (sl "abcdefghij").length →
            min (i * ((5 : Int).toNat - (3 : Int).toNat) + (5 : Int).toNat) (sl "abcdefghij").length
              - (i + 1) * ((5 : Int).toNat - (3 : Int).toNat) = (3 : Int).toNat)) :=
  ⟨by decide, by decide, by decide,
    c2_chunkText_windows (sl "abcdefghij") 5 3 (by decide) (by decide) (by decide)⟩

/-- **C4 (counterexample).** The orchestrator's chunker invocation with
unsupplied `chunk_size_chars` / `overlap_chars` does not use overlap 500:
on a 10,001-character text the default call produces final chunk length 1
where overlap 500 would produce 501. -/
theorem c4_counterexample :
    ¬ (∀ text : List Char,
        longChunksOf text = chunkText (pyStrip text) 10000 500) := by
  intro hall
  have h := hall (List.replicate 10001 'a')
  rw [longChunksOf, pyStrip_replicate_a] at h
  rw [chunkText_replicate_0 10001 (by omega),
    chunkText_replicate_500 10001 (by omega)] at h
  rw [show List.range 2 = [0, 1] by decide] at h
  simp only [List.map_cons, List.map_nil, Except.ok.injEq, List.cons.injEq,
    and_true] at h
  have hlen := congrArg List.length h.2
  simp only [List.length_replicate] at hlen
  omega

/-- **C4 (amended).** When the caller of `summarize_long_text_to_markdown`
does not supply `chunk_size_chars` and `overlap_chars`, the orchestrator
calls the Chunker with chunk size 10,000 and overlap 0 (not 500): the
default chunker invocation equals `chunk_text(text, 10000, 0)`, and on a
10,001-character text it yields two chunks of sizes 10,000 and 1. -/
theorem c4_default_overlap_zero :
    (∀ text : List Char,
      longChunksOf text = chunkText (pyStrip text) 10000 0) ∧
    ∃ chunks, longChunksOf (List.replicate 10001 'a') = .ok chunks ∧
      chunks.map List.length = [10000, 1] := by
  refine ⟨fun _ => rfl, ?_⟩
  rw [longChunksOf, pyStrip_replicate_a,
    chunkText_replicate_0 10001 (by omega)]
  refine ⟨_, rfl, ?_⟩
  rw [show List.range 2 = [0, 1] by decide]
  simp only [List.map_cons, List.map_nil, List.length_replicate]
  decide

/-- **C3 (counterexample).** A 25,000-character text chunked at
`chunk_size_chars = 10000`, `overlap_chars = 500` does not produce chunk
sizes `[10000, 10000, 5000]`: the third chunk starts at offset 19,000 and
has 6,000 characters. -/
theorem c3_counterexample :
    ¬ (∀ text : List Char, text.length = 25000 → c3ClaimedSizes text) := by
  intro hall
  obtain ⟨chunks, hok, hsizes⟩ :=
    hall (List.replicate 25000 'a') (List.length_replicate ..)
  rw [chunkText_replicate_500 25000 (by omega)] at hok
  rw [show List.range 3 = [0, 1, 2] by decide] at hok
  simp only [List.map_cons, List.map_nil] at hok
  injection hok with hok2
  rw [← hok2] at hsizes
  simp only [List.map_cons, List.map_nil, List.length_replicate,
    List.cons.injEq] at hsizes
  norm_num at hsizes

/-- A successful single-chunk summarization call. -/
theorem summarizeText_ok (gen : List Char → List Char)
    (text language topic : List Char) (rk rc okk occ : Option (List Char))
    (h : (pyStrip text).isEmpty = false) :
    summarizeTextToMarkdown gen text language topic rk rc okk occ =
      .ok (pyStrip (gen (fullPromptOf text language topic rk rc okk occ))) := by
  unfold summarizeTextToMarkdown
  rw [h]
  simp

/-- Every part built by the orchestrator loop starts with the `#` of its
`## Parte i/total` header. -/
theorem partHeader_sharp (i t : Nat) (md : List Char) :
    partHeader i t md =
      '#' :: pyRStrip (sl "# Parte " ++ natStr i ++ sl "/" ++ natStr t
        ++ sl "\n\n" ++ md) := by
  have harg : sl "## Parte " ++ natStr i ++ sl "/" ++ natStr t ++ sl "\n\n" ++ md
      = '#' :: (sl "# Parte " ++ natStr i ++ sl "/" ++ natStr t
        ++ sl "\n\n" ++ md) := rfl
  rw [partHeader, harg, pyStrip_cons _ _ (by decide)]

theorem intercalate_three (sep p1 p2 p3 : List Char) :
    List.intercalate sep [p1, p2, p3] = p1 ++ (sep ++ (p2 ++ (sep ++ p3))) := by
  simp [List.intercalate, List.intersperse]

/-- Joining three orchestrator parts with the `\n\n---\n\n` separator is a
string that is already stripped. -/
theorem pyStrip_join_parts (md1 md2 md3 : List Char) :
    pyStrip (List.intercalate (sl "\n\n---\n\n")
      [partHeader 1 3 md1, partHeader 2 3 md2, partHeader 3 3 md3]) =
    List.intercalate (sl "\n\n---\n\n")
      [partHeader 1 3 md1, partHeader 2 3 md2, partHeader 3 3 md3] := by
  rw [intercalate_three]
  apply pyStrip_eq_self
  · intro c hc
    rw [partHeader_sharp, List.cons_append, List.head?_cons] at hc
    cases hc
    decide
  · intro c hc
    have hp3 : partHeader 3 3 md3 ≠ [] := by
      rw [partHeader_sharp]
      exact List.cons_ne_nil _ _
    have h4 : sl "\n\n---\n\n" ++ partHeader 3 3 md3 ≠ [] :=
      fun h0 => hp3 (List.append_eq_nil.mp h0).2
    have h5 : partHeader 2 3 md2 ++ (sl "\n\n---\n\n" ++ partHeader 3 3 md3) ≠ [] :=
      fun h0 => h4 (List.append_eq_nil.mp h0).2
    have h6 : sl "\n\n---\n\n" ++
        (partHeader 2 3 md2 ++ (sl "\n\n---\n\n" ++ partHeader 3 3 md3)) ≠ [] :=
      fun h0 => h5 (List.append_eq_nil.mp h0).2
    rw [List.getLast?_append_of_ne_nil _ h6, List.getLast?_append_of_ne_nil _ h5,
      List.getLast?_append_of_ne_nil _ h4, List.getLast?_append_of_ne_nil _ hp3] at hc
    exact getLast?_pyStrip_not_space _ c hc

theorem chunkText_25000 :
    chunkText (List.replicate 25000 'a') 10000 500 =
      .ok [List.replicate 10000 'a', List.replicate 10000 'a',
        List.replicate 6000 'a'] := by
  rw [chunkText_replicate_500 25000 (by omega),
    show List.range 3 = [0, 1, 2] by decide]
  simp only [List.map_cons, List.map_nil]
  norm_num

/-- **C3 (amended).** A 25,000-character input at
`chunk_size_chars = 10000`, `overlap_chars = 500` produces exactly 3
chunks, of sizes 10000, 10000 and 6000 (not 5000) before overlap
trimming, and the orchestrator returns 3 `## Parte i/3` sections joined by
the separator `\n\n---\n\n`. -/
theorem c3_pipeline_three_parts :
    (∃ chunks, chunkText (List.replicate 25000 'a') 10000 500 = .ok chunks ∧
      chunks.map List.length = [10000, 10000, 6000]) ∧
    ∀ gen : List Char → List Char, ∃ md1 md2 md3,
      summarizeLongTextToMarkdown gen (List.replicate 25000 'a') (sl "es")
        (sl "Clase") none none none none 10000 500 =
      .ok (List.intercalate (sl "\n\n---\n\n")
        [partHeader 1 3 md1, partHeader 2 3 md2, partHeader 3 3 md3]) := by
  constructor
  · refine ⟨_, chunkText_25000, ?_⟩
    simp only [List.map_cons, List.map_nil, List.length_replicate]
  · intro gen
    have hlc : longChunksOf (List.replicate 25000 'a') 10000 500 =
        .ok [List.replicate 10000 'a', List.replicate 10000 'a',
          List.replicate 6000 'a'] := by
      rw [longChunksOf, pyStrip_replicate_a]
      exact chunkText_25000
    refine ⟨pyStrip (gen (fullPromptOf (List.replicate 10000 'a') (sl "es") (sl "Clase")
        none none none (some (perChunkOutputCustom none 1 3)))),
      pyStrip (gen (fullPromptOf (List.replicate 10000 'a') (sl "es") (sl "Clase")
        none none none (some (perChunkOutputCustom none 2 3)))),
      pyStrip (gen (fullPromptOf (List.replicate 6000 'a') (sl "es") (sl "Clase")
        none none none (some (perChunkOutputCustom none 3 3)))), ?_⟩
    unfold summarizeLongTextToMarkdown
    rw [pyStrip_replicate_a]
    rw [if_neg (by decide)]
    rw [hlc]
    have hne1 : (pyStrip (List.replicate 10000 'a')).isEmpty = false := by
      rw [pyStrip_replicate_a]
      decide
    have hne2 : (pyStrip (List.replicate 6000 'a')).isEmpty = false := by
      rw [pyStrip_replicate_a]
      decide
    generalize hg1 : List.replicate 10000 'a' = c1 at hne1 ⊢
    generalize hg2 : List.replicate 6000 'a' = c2 at hne2 ⊢
    have hs1 := summarizeText_ok gen c1 (sl "es") (sl "Clase")
      none none none (some (perChunkOutputCustom none 1 3)) hne1
    have hs2 := summarizeText_ok gen c1 (sl "es") (sl "Clase")
      none none none (some (perChunkOutputCustom none 2 3)) hne1
    have hs3 := summarizeText_ok gen c2 (sl "es") (sl "Clase")
      none none none (some (perChunkOutputCustom none 3 3)) hne2
    simp only [List.isEmpty_cons, Bool.false_eq_true, if_false, List.length_cons,
      List.length_nil, buildLongParts, hs1, hs2, hs3]
    rw [pyStrip_join_parts]

/-! ## Per-chunk instruction lemmas (C5) -/

theorem head?_pyStrip_not_space (s : List Char) :
    ∀ c, (pyStrip s).head? = some c → pyIsSpace c = false :=
  fun c hc => head?_dropWhile_not pyIsSpace (pyRStrip s) c hc

theorem dropWhile_ne_nil_of_mem (p : Char → Bool) (s : List Char) (c : Char)
    (hc : c ∈ s) (h : p c = false) : s.dropWhile p ≠ [] := by
  induction s with
  | nil => cases hc
  | cons d t ih =>
      rw [List.dropWhile_cons]
      by_cases hd : p d
      · rw [if_pos hd]
        rcases List.mem_cons.mp hc with rfl | hmem
        · rw [h] at hd; cases hd
        · exact ih hmem
      · rw [if_neg hd]
        exact List.cons_ne_nil d t

/-- A string ending in a non-whitespace character strips to a non-empty
string. -/
theorem pyStrip_ne_nil_last (a : List Char) (c : Char) (hc : pyIsSpace c = false) :
    (pyStrip (a ++ [c])).isEmpty = false := by
  unfold pyStrip
  rw [pyRStrip_eq_self (a ++ [c]) (fun d hd => by
    rw [List.getLast?_concat] at hd
    cases hd
    exact hc)]
  have hne : (a ++ [c]).dropWhile pyIsSpace ≠ [] :=
    dropWhile_ne_nil_of_mem pyIsSpace (a ++ [c]) c
      (List.mem_append.mpr (Or.inr (List.mem_singleton.mpr rfl))) hc
  unfold pyLStrip
  cases hdw : (a ++ [c]).dropWhile pyIsSpace with
  | nil => exact absurd hdw hne
  | cons x xs => rfl

/-- The per-chunk `output_custom` override always ends with the final `.`
of the appended directive. -/
theorem perChunk_ends_dot (occ : Option (List Char)) (i total : Nat) :
    ∃ z, perChunkOutputCustom occ i total = z ++ ['.'] :=
  ⟨_, by
    unfold perChunkOutputCustom
    rw [show sl ". Mantené la salida breve y estructurada (máx ~1–2 páginas)."
        = sl ". Mantené la salida breve y estructurada (máx ~1–2 páginas)" ++ ['.']
      from by decide]
    rw [← List.append_assoc]⟩

/-- The per-chunk override is never blank, so `build_prompt` always selects
it as the output-format text, bypassing any `output_key` preset and the
default directive. -/
theorem outTxt_perChunk (okk occ : Option (List Char)) (i total : Nat) :
    outTxtOf okk (some (perChunkOutputCustom occ i total)) =
      pyStrip (perChunkOutputCustom occ i total) := by
  unfold outTxtOf pyOr
  rw [show (some (perChunkOutputCustom occ i total)).getD [] =
    perChunkOutputCustom occ i total from rfl]
  obtain ⟨z, hz⟩ := perChunk_ends_dot occ i total
  rw [hz, pyStrip_ne_nil_last z '.' (by decide)]
  simp

/-- Stripping ignores a leading whitespace character. -/
theorem pyStrip_cons_of_ws (c : Char) (s : List Char) (hc : pyIsSpace c = true) :
    pyStrip (c :: s) = pyStrip s := by
  unfold pyStrip pyRStrip pyLStrip
  rw [show (c :: s).reverse = s.reverse ++ [c] by simp]
  rw [List.dropWhile_append]
  by_cases he : (s.reverse.dropWhile pyIsSpace).isEmpty
  · rw [if_pos he, List.isEmpty_iff.mp he]
    simp [List.dropWhile_cons, hc]
  · rw [if_neg he]
    simp [List.reverse_append, List.dropWhile_cons, hc]

set_option maxRecDepth 100000 in
/-- **C5 (counterexample).** With `output_custom` absent and
`output_key = "resumen"`, the per-chunk instruction block of chunk 1/1
does not contain the `resumen` preset text: the nonempty per-chunk
override shadows the preset lookup in `build_prompt`. -/
theorem c5_counterexample :
    ¬ ((sl "Resumen conciso del contenido principal, con puntos clave y definiciones esenciales.") <:+:
      (buildPrompt (sl "es") (sl "Clase") none none (some (sl "resumen"))
        (some (perChunkOutputCustom none 1 1)))) := by decide

/-- **C5 (amended).** For every chunk `i` of `total`, the output-format
text selected by `build_prompt` for the per-chunk call is: the caller's
stripped `output_custom` followed by a blank line and the part-`i/total`
keep-it-short directive, when `output_custom` is present and non-blank;
and the directive alone when `output_custom` is absent — in that case the
result does not depend on `output_key`, so neither a preset nor the
default output directive appears in the per-chunk instruction block. -/
theorem c5_perChunk_instruction (custom : List Char) (okk : Option (List Char))
    (i total : Nat) (h : (pyStrip custom).isEmpty = false) :
    outTxtOf okk (some (perChunkOutputCustom (some custom) i total)) =
      pyStrip custom ++ sl "\n\nIMPORTANTE: Esta es la parte " ++ natStr i ++ sl "/"
        ++ natStr total
        ++ sl ". Mantené la salida breve y estructurada (máx ~1–2 páginas)." ∧
    outTxtOf okk (some (perChunkOutputCustom none i total)) =
      sl "IMPORTANTE: Esta es la parte " ++ natStr i ++ sl "/" ++ natStr total
        ++ sl ". Mantené la salida breve y estructurada (máx ~1–2 páginas)." := by
  have hLne : sl ". Mantené la salida breve y estructurada (máx ~1–2 páginas)." ≠ [] := by
    decide
  have hLlast : (sl ". Mantené la salida breve y estructurada (máx ~1–2 páginas)").getLast?
      = some ')' := by decide
  have hLlast2 : (sl ". Mantené la salida breve y estructurada (máx ~1–2 páginas).").getLast?
      = some '.' := by decide
  constructor
  · rw [outTxt_perChunk]
    have hper : perChunkOutputCustom (some custom) i total =
        pyStrip custom ++ sl "\n\nIMPORTANTE: Esta es la parte " ++ natStr i
          ++ sl "/" ++ natStr total
          ++ sl ". Mantené la salida breve y estructurada (máx ~1–2 páginas)." := by
      unfold perChunkOutputCustom
      rw [show (some custom).getD [] = custom from rfl, h]
      rw [if_neg (by simp)]
      simp only [List.append_assoc]
      congr 1
    rw [hper]
    have hne : pyStrip custom ≠ [] := by
      intro h0
      rw [h0] at h
      simp at h
    obtain ⟨c, r, hcr⟩ := List.exists_cons_of_ne_nil hne
    apply pyStrip_eq_self
    · intro d hd
      rw [hcr] at hd
      simp only [List.cons_append, List.head?_cons, Option.some.injEq] at hd
      rw [← hd]
      exact head?_pyStrip_not_space custom c (by rw [hcr]; rfl)
    · intro d hd
      rw [List.getLast?_append_of_ne_nil _ hLne, hLlast2] at hd
      cases hd
      decide
  · rw [outTxt_perChunk]
    have hperN : perChunkOutputCustom none i total =
        '\n' :: (sl "IMPORTANTE: Esta es la parte " ++ natStr i ++ sl "/"
          ++ natStr total
          ++ sl ". Mantené la salida breve y estructurada (máx ~1–2 páginas).") := by
      unfold perChunkOutputCustom
      rw [if_pos (show (pyStrip ((none : Option (List Char)).getD [])).isEmpty = true
        from rfl)]
      rw [show pyStrip ((none : Option (List Char)).getD []) = [] from rfl]
      rw [show sl "\nIMPORTANTE: Esta es la parte "
          = '\n' :: sl "IMPORTANTE: Esta es la parte " from rfl]
      simp [List.cons_append, List.append_assoc]
    rw [hperN, pyStrip_cons_of_ws '\n' _ (by decide)]
    apply pyStrip_eq_self
    · intro d hd
      rw [show ((sl "IMPORTANTE: Esta es la parte " ++ natStr i ++ sl "/"
          ++ natStr total
          ++ sl ". Mantené la salida breve y estructurada (máx ~1–2 páginas).")).head?
          = some 'I' from rfl] at hd
      cases hd
      decide
    · intro d hd
      rw [List.getLast?_append_of_ne_nil _ hLne, hLlast2] at hd
      cases hd
      decide

/-- Witness for the amended C5 at `output_custom = "Usá viñetas."`,
`output_key = "resumen"`, chunk 1 of 2. -/
theorem c5_perChunk_instruction_witness :
    (pyStrip (sl "Usá viñetas.")).isEmpty = false ∧
    (outTxtOf (some (sl "resumen")) (some (perChunkOutputCustom (some (sl "Usá viñetas.")) 1 2)) =
      pyStrip (sl "Usá viñetas.") ++ sl "\n\nIMPORTANTE: Esta es la parte " ++ natStr 1 ++ sl "/"
        ++ natStr 2
        ++ sl ". Mantené la salida breve y estructurada (máx ~1–2 páginas)." ∧
    outTxtOf (some (sl "resumen")) (some (perChunkOutputCustom none 1 2)) =
      sl "IMPORTANTE: Esta es la parte " ++ natStr 1 ++ sl "/" ++ natStr 2
        ++ sl ". Mantené la salida breve y estructurada (máx ~1–2 páginas).") :=
  ⟨by decide,
    c5_perChunk_instruction (sl "Usá viñetas.") (some (sl "resumen")) 1 2 (by decide)⟩

/-! ## pyReplace lemmas -/

theorem isPrefixOf_cons_of_ne (p c : Char) (pt X : List Char) (h : p ≠ c) :
    (p :: pt).isPrefixOf (c :: X) = false := by
  show (p == c && pt.isPrefixOf X) = false
  rw [show (p == c) = false from beq_eq_false_iff_ne.mpr h, Bool.false_and]

/-- A replacement scan copies any pattern-head-free prefix unchanged. -/
theorem pyReplaceGo_copy (p : Char) (pt rep : List Char) :
    ∀ (l s : List Char), p ∉ l →
      pyReplaceGo (p :: pt) rep (l.length + s.length) (l ++ s) =
        l ++ pyReplaceGo (p :: pt) rep s.length s := by
  intro l
  induction l with
  | nil => intro s _; simp
  | cons c l' ih =>
      intro s h
      have hpc : p ≠ c := fun he => h (he ▸ List.mem_cons_self c l')
      rw [List.cons_append,
        show (c :: l').length + s.length = (l'.length + s.length) + 1 from by
          rw [List.length_cons]; omega]
      simp only [pyReplaceGo, isPrefixOf_cons_of_ne p c pt (l' ++ s) hpc,
        Bool.false_eq_true, if_false]
      rw [ih s (fun hm => h (List.mem_cons_of_mem c hm)), List.cons_append]

/-- The scan result does not depend on the fuel, as long as the fuel is at
least the length of the string. -/
theorem pyReplaceGo_fuel_eq (p : Char) (pt rep : List Char) :
    ∀ (n : Nat) (s : List Char) (f1 f2 : Nat), s.length ≤ n →
      s.length ≤ f1 → s.length ≤ f2 →
      pyReplaceGo (p :: pt) rep f1 s = pyReplaceGo (p :: pt) rep f2 s := by
  intro n
  induction n with
  | zero =>
      intro s f1 f2 hn _ _
      have hs : s = [] := List.eq_nil_of_length_eq_zero (by omega)
      subst hs
      simp [pyReplaceGo]
  | succ m ih =>
      intro s f1 f2 hn h1 h2
      cases s with
      | nil => simp [pyReplaceGo]
      | cons c t =>
          cases f1 with
          | zero => simp at h1
          | succ g1 =>
              cases f2 with
              | zero => simp at h2
              | succ g2 =>
                  simp only [pyReplaceGo]
                  by_cases hp : (p :: pt).isPrefixOf (c :: t)
                  · rw [if_pos hp, if_pos hp]
                    congr 1
                    apply ih
                    · rw [List.length_drop]
                      simp only [List.length_cons] at hn ⊢
                      omega
                    · rw [List.length_drop]
                      simp only [List.length_cons] at h1 ⊢
                      omega
                    · rw [List.length_drop]
                      simp only [List.length_cons] at h2 ⊢
                      omega
                  · rw [if_neg hp, if_neg hp]
                    congr 1
                    apply ih t g1 g2
                    · simp only [List.length_cons] at hn
                      omega
                    · simp only [List.length_cons] at h1
                      omega
                    · simp only [List.length_cons] at h2
                      omega

/-- `str.replace` leaves a prefix free of the pattern's head character
unchanged and continues behind it. -/
theorem pyReplace_copy (p : Char) (pt rep l s : List Char) (h : p ∉ l) :
    pyReplace (p :: pt) rep (l ++ s) = l ++ pyReplace (p :: pt) rep s := by
  unfold pyReplace
  rw [List.length_append]
  exact pyReplaceGo_copy p pt rep l s h

/-- `str.replace` replaces an occurrence of the pattern at the scan
position and continues after the replaced segment. -/
theorem pyReplace_head (p : Char) (pt rep s : List Char) :
    pyReplace (p :: pt) rep ((p :: pt) ++ s) = rep ++ pyReplace (p :: pt) rep s := by
  unfold pyReplace
  rw [List.cons_append, List.length_cons]
  have hpre : (p :: pt).isPrefixOf (p :: (pt ++ s)) = true := by
    show (p == p && pt.isPrefixOf (pt ++ s)) = true
    rw [beq_self_eq_true, Bool.true_and]
    induction pt with
    | nil => simp [List.isPrefixOf]
    | cons d dt ihd =>
        show (d == d && dt.isPrefixOf (dt ++ s)) = true
        rw [beq_self_eq_true, Bool.true_and]
        exact ihd
  simp only [pyReplaceGo, hpre, if_true]
  congr 1
  have hdrop : (p :: (pt ++ s)).drop (p :: pt).length = s := by
    rw [show (p :: (pt ++ s)) = (p :: pt) ++ s from by rw [List.cons_append]]
    exact List.drop_left (p :: pt) s
  rw [hdrop]
  exact pyReplaceGo_fuel_eq p pt rep ((pt ++ s).length) s _ _
    (by simp [List.length_append]) (by simp [List.length_append]) (le_refl _)

/-- A two-character glyph replacement rewrites a match right after a
head-free prefix. -/
theorem glyphStep_match (p : Char) (a b : List Char) (ha : p ∉ a) :
    pyReplace (p :: [' ']) ('-' :: [' ']) (a ++ p :: ' ' :: b) =
      a ++ '-' :: ' ' :: pyReplace (p :: [' ']) ('-' :: [' ']) b := by
  rw [show a ++ p :: ' ' :: b = a ++ ((p :: [' ']) ++ b) from rfl,
    pyReplace_copy p [' '] _ a _ ha, pyReplace_head]
  rfl

/-- A two-character glyph replacement passes over a prefix and a different
glyph pair unchanged. -/
theorem glyphStep_skip (p g : Char) (a X : List Char) (ha : p ∉ a)
    (hpg : p ≠ g) (hps : p ≠ ' ') :
    pyReplace (p :: [' ']) ('-' :: [' ']) (a ++ g :: ' ' :: X) =
      a ++ g :: ' ' :: pyReplace (p :: [' ']) ('-' :: [' ']) X := by
  have he : a ++ g :: ' ' :: X = (a ++ [g, ' ']) ++ X := by simp
  have hmem : p ∉ a ++ [g, ' '] := by
    intro hm
    rcases List.mem_append.mp hm with hm | hm
    · exact ha hm
    · rcases List.mem_cons.mp hm with rfl | hm
      · exact hpg rfl
      · rcases List.mem_singleton.mp hm with rfl
        exact hps rfl
  rw [he, pyReplace_copy p [' '] _ _ _ hmem]
  simp

/-- **C10.** The renderer's bullet-glyph normalization applies to every
occurrence anywhere within a line, not only at its start: after any
prefix free of the three glyphs, an interior `"• "` / `"– "` / `"— "` is
rewritten to `"- "` in place (and the scan continues on the rest of the
line); in particular a mid-paragraph and a mid-heading glyph are rewritten
in the rendered output. -/
theorem c10_glyphs_everywhere (a b : List Char)
    (h1 : '•' ∉ a) (h2 : '–' ∉ a) (h3 : '—' ∉ a) :
    (replaceGlyphs (a ++ '•' :: ' ' :: b) = a ++ '-' :: ' ' :: replaceGlyphs b ∧
     replaceGlyphs (a ++ '–' :: ' ' :: b) = a ++ '-' :: ' ' :: replaceGlyphs b ∧
     replaceGlyphs (a ++ '—' :: ' ' :: b) = a ++ '-' :: ' ' :: replaceGlyphs b) ∧
    markdownToBlocks (sl "Hello • World") = [RBlock.paragraph (sl "Hello - World")] ∧
    markdownToBlocks (sl "## T • U") = [RBlock.heading 2 (sl "T - U")] := by
  have e1 : sl "• " = '•' :: [' '] := rfl
  have e2 : sl "– " = '–' :: [' '] := rfl
  have e3 : sl "— " = '—' :: [' '] := rfl
  have er : sl "- " = '-' :: [' '] := rfl
  refine ⟨⟨?_, ?_, ?_⟩, by decide, by decide⟩
  · unfold replaceGlyphs
    rw [e1, e2, e3, er]
    rw [glyphStep_match '•' a b h1]
    rw [glyphStep_skip '–' '-' a _ h2 (by decide) (by decide)]
    rw [glyphStep_skip '—' '-' a _ h3 (by decide) (by decide)]
  · unfold replaceGlyphs
    rw [e1, e2, e3, er]
    rw [glyphStep_skip '•' '–' a _ h1 (by decide) (by decide)]
    rw [glyphStep_match '–' a _ h2]
    rw [glyphStep_skip '—' '-' a _ h3 (by decide) (by decide)]
  · unfold replaceGlyphs
    rw [e1, e2, e3, er]
    rw [glyphStep_skip '•' '—' a _ h1 (by decide) (by decide)]
    rw [glyphStep_skip '–' '—' a _ h2 (by decide) (by decide)]
    rw [glyphStep_match '—' a _ h3]

/-- Witness for C10 at `a = "Hello "`, `b = "World"`. -/
theorem c10_glyphs_everywhere_witness :
    ('•' ∉ sl "Hello ") ∧ ('–' ∉ sl "Hello ") ∧ ('—' ∉ sl "Hello ") ∧
    ((replaceGlyphs (sl "Hello " ++ '•' :: ' ' :: sl "World") =
        sl "Hello " ++ '-' :: ' ' :: replaceGlyphs (sl "World") ∧
      replaceGlyphs (sl "Hello " ++ '–' :: ' ' :: sl "World") =
        sl "Hello " ++ '-' :: ' ' :: replaceGlyphs (sl "World") ∧
      replaceGlyphs (sl "Hello " ++ '—' :: ' ' :: sl "World") =
        sl "Hello " ++ '-' :: ' ' :: replaceGlyphs (sl "World")) ∧
     markdownToBlocks (sl "Hello • World") = [RBlock.paragraph (sl "Hello - World")] ∧
     markdownToBlocks (sl "## T • U") = [RBlock.heading 2 (sl "T - U")]) :=
  ⟨by decide, by decide, by decide,
    c10_glyphs_everywhere (sl "Hello ") (sl "World")
      (by decide) (by decide) (by decide)⟩

/-- **C7.** On the six-line document `## Title`, blank, `- a`, `- b`,
blank, `plain text`, the renderer's block sequence contains, in order, one
level-2 heading, one bullet list with exactly the items `a` and `b`
(consecutive bullet lines accumulate and are flushed by the following
blank line), and one paragraph `plain text`; the full block sequence is
also computed explicitly. -/
theorem c7_renderer_blocks :
    markdownToBlocks (sl "## Title\n\n- a\n- b\n\nplain text") =
      [RBlock.heading 2 (sl "Title"), RBlock.spacer 10,
       RBlock.bulletList [sl "a", sl "b"], RBlock.spacer 8, RBlock.spacer 10,
       RBlock.paragraph (sl "plain text")] ∧
    [RBlock.heading 2 (sl "Title"), RBlock.bulletList [sl "a", sl "b"],
     RBlock.paragraph (sl "plain text")].Sublist
      (markdownToBlocks (sl "## Title\n\n- a\n- b\n\nplain text")) := by
  constructor
  · decide
  · decide

/-- **C8.** On the line ``**bold** and *italic* and `code *not italic*` ``
the inline formatter emits `bold` in a bold tag, `italic` in an italic
tag, and the backticked segment as fixed-width Courier text with its
literal asterisks intact and no tags inside; the code span is extracted
before bold/italic matching (it is the one collected span). -/
theorem c8_inline_precedence :
    mdInlineToRl (sl "**bold** and *italic* and `code *not italic*`") =
      sl "<b>bold</b> and <i>italic</i> and <font face=\"Courier\">code *not italic*</font>" ∧
    (codeSub (esc (sl "**bold** and *italic* and `code *not italic*`"))).2 =
      [sl "code *not italic*"] := by
  constructor
  · decide
  · decide

/-! ## Safe grammar lemmas (C9) -/

theorem safe_append (a b : List Char) (ha : Safe a) (hb : Safe b) :
    Safe (a ++ b) := by
  induction ha with
  | nil => simpa
  | plain c rest h1 h2 h3 _ ih => exact Safe.plain c _ h1 h2 h3 ih
  | entAmp rest _ ih => exact Safe.entAmp _ ih
  | entLt rest _ ih => exact Safe.entLt _ ih
  | entGt rest _ ih => exact Safe.entGt _ ih
  | tagBOpen rest _ ih => exact Safe.tagBOpen _ ih
  | tagBClose rest _ ih => exact Safe.tagBClose _ ih
  | tagIOpen rest _ ih => exact Safe.tagIOpen _ ih
  | tagIClose rest _ ih => exact Safe.tagIClose _ ih
  | tagFontOpen rest _ ih => exact Safe.tagFontOpen _ ih
  | tagFontClose rest _ ih => exact Safe.tagFontClose _ ih

theorem safe_cons_inv (c : Char) (t : List Char) (h : Safe (c :: t))
    (h1 : c ≠ '&') (h2 : c ≠ '<') : Safe t := by
  cases h with
  | plain _ _ _ _ _ ht => exact ht
  | entAmp => exact absurd rfl h1
  | entLt => exact absurd rfl h1
  | entGt => exact absurd rfl h1
  | tagBOpen => exact absurd rfl h2
  | tagBClose => exact absurd rfl h2
  | tagIOpen => exact absurd rfl h2
  | tagIClose => exact absurd rfl h2
  | tagFontOpen => exact absurd rfl h2
  | tagFontClose => exact absurd rfl h2

theorem safe_plain_append (l x : List Char)
    (hl : ∀ c ∈ l, c ≠ '&' ∧ c ≠ '<' ∧ c ≠ '>') (hx : Safe x) :
    Safe (l ++ x) := by
  induction l with
  | nil => simpa
  | cons c t ih =>
      obtain ⟨h1, h2, h3⟩ := hl c (List.mem_cons_self c t)
      exact Safe.plain c _ h1 h2 h3 (ih (fun d hd => hl d (List.mem_cons_of_mem c hd)))

/-- If a unit-free character splits `u ++ rest` after a prefix `a` that
avoids it, and the unit `u` also avoids it, then the split lies in
`rest`. -/
theorem peel_unit (u rest a b : List Char) (c : Char)
    (he : u ++ rest = a ++ c :: b) (hcu : c ∉ u) (hna : c ∉ a) :
    ∃ a2, a = u ++ a2 ∧ rest = a2 ++ c :: b ∧ c ∉ a2 := by
  rcases List.append_eq_append_iff.mp he with ⟨a2, ha2, hr⟩ | ⟨u2, hu2, hcb⟩
  · refine ⟨a2, ha2, hr, fun hm => hna ?_⟩
    rw [ha2]
    exact List.mem_append.mpr (Or.inr hm)
  · cases u2 with
    | nil =>
        refine ⟨[], by simp [hu2], ?_, by simp⟩
        simpa using hcb.symm
    | cons x u3 =>
        exfalso
        have hx : x = c := by
          have := hcb
          rw [List.cons_append] at this
          injection this with e1 _
          exact e1.symm
        apply hcu
        rw [hu2, hx]
        exact List.mem_append.mpr (Or.inr (List.mem_cons_self c u3))

theorem safe_split (s : List Char) (hs : Safe s) (c : Char) (hc : unitFree c) :
    ∀ a b, s = a ++ c :: b → c ∉ a → Safe a ∧ Safe b := by
  obtain ⟨hc1, hc2, hc3, hc4, hc5, hc6, hc7, hc8, hc9⟩ := hc
  induction hs with
  | nil =>
      intro a b he _
      rw [eq_comm] at he
      simp at he
  | plain d rest h1 h2 h3 hrest ih =>
      intro a b he hna
      cases a with
      | nil =>
          rw [List.nil_append] at he
          injection he with e1 e2
          subst e2
          exact ⟨Safe.nil, hrest⟩
      | cons a0 a1 =>
          rw [List.cons_append] at he
          injection he with e1 e2
          subst e1
          obtain ⟨hA, hB⟩ := ih a1 b e2 (fun hm => hna (List.mem_cons_of_mem _ hm))
          exact ⟨Safe.plain d a1 h1 h2 h3 hA, hB⟩
  | entAmp rest hrest ih =>
      intro a b he hna
      obtain ⟨a2, ha2, hr, hna2⟩ := peel_unit (sl "&amp;") rest a b c he hc1 hna
      obtain ⟨hA, hB⟩ := ih a2 b hr hna2
      exact ⟨ha2 ▸ Safe.entAmp a2 hA, hB⟩
  | entLt rest hrest ih =>
      intro a b he hna
      obtain ⟨a2, ha2, hr, hna2⟩ := peel_unit (sl "&lt;") rest a b c he hc2 hna
      obtain ⟨hA, hB⟩ := ih a2 b hr hna2
      exact ⟨ha2 ▸ Safe.entLt a2 hA, hB⟩
  | entGt rest hrest ih =>
      intro a b he hna
      obtain ⟨a2, ha2, hr, hna2⟩ := peel_unit (sl "&gt;") rest a b c he hc3 hna
      obtain ⟨hA, hB⟩ := ih a2 b hr hna2
      exact ⟨ha2 ▸ Safe.entGt a2 hA, hB⟩
  | tagBOpen rest hrest ih =>
      intro a b he hna
      obtain ⟨a2, ha2, hr, hna2⟩ := peel_unit (sl "<b>") rest a b c he hc4 hna
      obtain ⟨hA, hB⟩ := ih a2 b hr hna2
      exact ⟨ha2 ▸ Safe.tagBOpen a2 hA, hB⟩
  | tagBClose rest hrest ih =>
      intro a b he hna
      obtain ⟨a2, ha2, hr, hna2⟩ := peel_unit (sl "</b>") rest a b c he hc5 hna
      obtain ⟨hA, hB⟩ := ih a2 b hr hna2
      exact ⟨ha2 ▸ Safe.tagBClose a2 hA, hB⟩
  | tagIOpen rest hrest ih =>
      intro a b he hna
      obtain ⟨a2, ha2, hr, hna2⟩ := peel_unit (sl "<i>") rest a b c he hc6 hna
      obtain ⟨hA, hB⟩ := ih a2 b hr hna2
      exact ⟨ha2 ▸ Safe.tagIOpen a2 hA, hB⟩
  | tagIClose rest hrest ih =>
      intro a b he hna
      obtain ⟨a2, ha2, hr, hna2⟩ := peel_unit (sl "</i>") rest a b c he hc7 hna
      obtain ⟨hA, hB⟩ := ih a2 b hr hna2
      exact ⟨ha2 ▸ Safe.tagIClose a2 hA, hB⟩
  | tagFontOpen rest hrest ih =>
      intro a b he hna
      obtain ⟨a2, ha2, hr, hna2⟩ :=
        peel_unit (sl "<font face=\"Courier\">") rest a b c he hc8 hna
      obtain ⟨hA, hB⟩ := ih a2 b hr hna2
      exact ⟨ha2 ▸ Safe.tagFontOpen a2 hA, hB⟩
  | tagFontClose rest hrest ih =>
      intro a b he hna
      obtain ⟨a2, ha2, hr, hna2⟩ := peel_unit (sl "</font>") rest a b c he hc9 hna
      obtain ⟨hA, hB⟩ := ih a2 b hr hna2
      exact ⟨ha2 ▸ Safe.tagFontClose a2 hA, hB⟩

/-- Dropping a prefix of characters that are neither `&` nor `<` from a
`Safe` string leaves a `Safe` string. -/
theorem safe_drop_of_neutral (s : List Char) (hs : Safe s) :
    ∀ k, (∀ c ∈ s.take k, c ≠ '&' ∧ c ≠ '<') → Safe (s.drop k) := by
  induction hs with
  | nil => intro k _; simp; exact Safe.nil
  | plain c rest h1 h2 h3 hrest ih =>
      intro k hk
      cases k with
      | zero => exact Safe.plain c rest h1 h2 h3 hrest
      | succ m =>
          rw [List.drop_succ_cons]
          exact ih m (fun d hd => hk d (by
            rw [List.take_succ_cons]
            exact List.mem_cons_of_mem c hd))
  | entAmp rest hrest ih =>
      intro k hk
      cases k with
      | zero => exact Safe.entAmp rest hrest
      | succ m =>
          exact absurd rfl (hk '&' (by
            rw [List.take_succ_cons]
            exact List.mem_cons_self '&' _)).1
  | entLt rest hrest ih =>
      intro k hk
      cases k with
      | zero => exact Safe.entLt rest hrest
      | succ m =>
          exact absurd rfl (hk '&' (by
            rw [List.take_succ_cons]
            exact List.mem_cons_self '&' _)).1
  | entGt rest hrest ih =>
      intro k hk
      cases k with
      | zero => exact Safe.entGt rest hrest
      | succ m =>
          exact absurd rfl (hk '&' (by
            rw [List.take_succ_cons]
            exact List.mem_cons_self '&' _)).1
  | tagBOpen rest hrest ih =>
      intro k hk
      cases k with
      | zero => exact Safe.tagBOpen rest hrest
      | succ m =>
          exact absurd rfl (hk '<' (by
            rw [List.take_succ_cons]
            exact List.mem_cons_self '<' _)).2
  | tagBClose rest hrest ih =>
      intro k hk
      cases k with
      | zero => exact Safe.tagBClose rest hrest
      | succ m =>
          exact absurd rfl (hk '<' (by
            rw [List.take_succ_cons]
            exact List.mem_cons_self '<' _)).2
  | tagIOpen rest hrest ih =>
      intro k hk
      cases k with
      | zero => exact Safe.tagIOpen rest hrest
      | succ m =>
          exact absurd rfl (hk '<' (by
            rw [List.take_succ_cons]
            exact List.mem_cons_self '<' _)).2
  | tagIClose rest hrest ih =>
      intro k hk
      cases k with
      | zero => exact Safe.tagIClose rest hrest
      | succ m =>
          exact absurd rfl (hk '<' (by
            rw [List.take_succ_cons]
            exact List.mem_cons_self '<' _)).2
  | tagFontOpen rest hrest ih =>
      intro k hk
      cases k with
      | zero => exact Safe.tagFontOpen rest hrest
      | succ m =>
          exact absurd rfl (hk '<' (by
            rw [List.take_succ_cons]
            exact List.mem_cons_self '<' _)).2
  | tagFontClose rest hrest ih =>
      intro k hk
      cases k with
      | zero => exact Safe.tagFontClose rest hrest
      | succ m =>
          exact absurd rfl (hk '<' (by
            rw [List.take_succ_cons]
            exact List.mem_cons_self '<' _)).2

/-- One scan step of a single-character replacement. -/
theorem pyReplace_single_cons (p : Char) (rep : List Char) (c : Char)
    (t : List Char) :
    pyReplace [p] rep (c :: t) =
      (if c = p then rep else [c]) ++ pyReplace [p] rep t := by
  by_cases hc : c = p
  · subst hc
    rw [if_pos rfl]
    exact pyReplace_head c [] rep t
  · rw [if_neg hc]
    have h := pyReplace_copy p [] rep [c] t
      (fun hm => hc (List.mem_singleton.mp hm).symm)
    simpa using h

/-- `esc` acts per character: each step emits an entity or the character. -/
theorem esc_cons (c : Char) (t : List Char) :
    esc (c :: t) =
      (if c = '&' then sl "&amp;" else if c = '<' then sl "&lt;"
       else if c = '>' then sl "&gt;" else [c]) ++ esc t := by
  by_cases h1 : c = '&'
  · subst h1
    rw [if_pos rfl]
    unfold esc
    rw [show (sl "&" : List Char) = ['&'] from rfl,
      show (sl "<" : List Char) = ['<'] from rfl,
      show (sl ">" : List Char) = ['>'] from rfl]
    rw [pyReplace_single_cons '&' (sl "&amp;") '&' t, if_pos rfl]
    rw [show (sl "&amp;" : List Char) = ['&', 'a', 'm', 'p', ';'] from rfl]
    rw [pyReplace_copy '<' [] (sl "&lt;") ['&', 'a', 'm', 'p', ';'] _ (by decide)]
    rw [pyReplace_copy '>' [] (sl "&gt;") ['&', 'a', 'm', 'p', ';'] _ (by decide)]
  · rw [if_neg h1]
    by_cases h2 : c = '<'
    · subst h2
      rw [if_pos rfl]
      unfold esc
      rw [show (sl "&" : List Char) = ['&'] from rfl,
        show (sl "<" : List Char) = ['<'] from rfl,
        show (sl ">" : List Char) = ['>'] from rfl]
      rw [pyReplace_single_cons '&' (sl "&amp;") '<' t, if_neg (by decide)]
      rw [show (['<'] : List Char) ++ pyReplace ['&'] (sl "&amp;") t
          = ('<' :: []) ++ pyReplace ['&'] (sl "&amp;") t from rfl]
      rw [pyReplace_head '<' [] (sl "&lt;")]
      rw [show (sl "&lt;" : List Char) = ['&', 'l', 't', ';'] from rfl]
      rw [pyReplace_copy '>' [] (sl "&gt;") ['&', 'l', 't', ';'] _ (by decide)]
    · rw [if_neg h2]
      by_cases h3 : c = '>'
      · subst h3
        rw [if_pos rfl]
        unfold esc
        rw [show (sl "&" : List Char) = ['&'] from rfl,
          show (sl "<" : List Char) = ['<'] from rfl,
          show (sl ">" : List Char) = ['>'] from rfl]
        rw [pyReplace_single_cons '&' (sl "&amp;") '>' t, if_neg (by decide)]
        rw [pyReplace_copy '<' [] (sl "&lt;") ['>'] _ (by decide)]
        rw [show (['>'] : List Char) ++ pyReplace ['<'] (sl "&lt;")
              (pyReplace ['&'] (sl "&amp;") t)
            = ('>' :: []) ++ pyReplace ['<'] (sl "&lt;")
              (pyReplace ['&'] (sl "&amp;") t) from rfl]
        rw [pyReplace_head '>' [] (sl "&gt;")]
      · rw [if_neg h3]
        unfold esc
        rw [show (sl "&" : List Char) = ['&'] from rfl,
          show (sl "<" : List Char) = ['<'] from rfl,
          show (sl ">" : List Char) = ['>'] from rfl]
        rw [pyReplace_single_cons '&' (sl "&amp;") c t, if_neg h1]
        rw [pyReplace_copy '<' [] (sl "&lt;") [c] _
          (fun hm => h2 (List.mem_singleton.mp hm).symm)]
        rw [pyReplace_copy '>' [] (sl "&gt;") [c] _
          (fun hm => h3 (List.mem_singleton.mp hm).symm)]

/-- The escaping stage always produces a `Safe` string (entities and plain
characters only). -/
theorem esc_safe (s : List Char) : Safe (esc s) := by
  induction s with
  | nil => exact Safe.nil
  | cons c t ih =>
      rw [esc_cons]
      by_cases h1 : c = '&'
      · subst h1
        rw [if_pos rfl]
        exact Safe.entAmp _ ih
      · rw [if_neg h1]
        by_cases h2 : c = '<'
        · subst h2
          rw [if_pos rfl]
          exact Safe.entLt _ ih
        · rw [if_neg h2]
          by_cases h3 : c = '>'
          · subst h3
            rw [if_pos rfl]
            exact Safe.entGt _ ih
          · rw [if_neg h3]
            exact Safe.plain c _ h1 h2 h3 ih

/-! ## Code-span extraction safety (C9) -/

theorem isEmpty_false_of_ne_nil (l : List Char) (h : l ≠ []) : l.isEmpty = false := by
  cases l with
  | nil => exact absurd rfl h
  | cons c t => rfl

theorem takeWhile_all_append (p : Char → Bool) (l : List Char) (d : Char)
    (r : List Char) (hl : ∀ c ∈ l, p c = true) (hd : p d = false) :
    (l ++ d :: r).takeWhile p = l := by
  induction l with
  | nil => simp [List.takeWhile_cons, hd]
  | cons c t ih =>
      rw [List.cons_append, List.takeWhile_cons, hl c (List.mem_cons_self c t)]
      rw [ih (fun e he => hl e (List.mem_cons_of_mem c he))]
      rfl

theorem codeSubGo_fuel_eq :
    ∀ (n : Nat) (s : List Char) (k f1 f2 : Nat), s.length ≤ n →
      s.length ≤ f1 → s.length ≤ f2 →
      codeSubGo f1 k s = codeSubGo f2 k s := by
  intro n
  induction n with
  | zero =>
      intro s k f1 f2 hn _ _
      have hs : s = [] := List.eq_nil_of_length_eq_zero (by omega)
      subst hs
      simp [codeSubGo]
  | succ m ih =>
      intro s k f1 f2 hn h1 h2
      cases s with
      | nil => simp [codeSubGo]
      | cons c t =>
          cases f1 with
          | zero => simp at h1
          | succ g1 =>
              cases f2 with
              | zero => simp at h2
              | succ g2 =>
                  simp only [codeSubGo]
                  simp only [List.length_cons] at hn h1 h2
                  by_cases hc : c = '`'
                  · rw [if_pos hc, if_pos hc]
                    by_cases he : ((t.takeWhile (fun d => d ≠ '`')).isEmpty)
                    · rw [if_pos he, if_pos he,
                        ih t k g1 g2 (by omega) (by omega) (by omega)]
                    · rw [if_neg he, if_neg he]
                      by_cases hd : ((t.drop (t.takeWhile (fun d => d ≠ '`')).length).isEmpty)
                      · rw [if_pos hd, if_pos hd,
                          ih t k g1 g2 (by omega) (by omega) (by omega)]
                      · rw [if_neg hd, if_neg hd,
                          ih (t.drop ((t.takeWhile (fun d => d ≠ '`')).length + 1))
                            (k + 1) g1 g2
                            (by rw [List.length_drop]; omega)
                            (by rw [List.length_drop]; omega)
                            (by rw [List.length_drop]; omega)]
                  · rw [if_neg hc, if_neg hc,
                      ih t k g1 g2 (by omega) (by omega) (by omega)]

theorem codeSubGo_cons_ne (c : Char) (t : List Char) (k : Nat) (hc : ¬ c = '`') :
    codeSubGo (c :: t).length k (c :: t) =
      (c :: (codeSubGo t.length k t).1, (codeSubGo t.length k t).2) := by
  rw [List.length_cons]
  simp only [codeSubGo]
  rw [if_neg hc]

theorem codeSubGo_copy :
    ∀ (l rest : List Char) (k : Nat), '`' ∉ l →
      codeSubGo (l ++ rest).length k (l ++ rest) =
        (l ++ (codeSubGo rest.length k rest).1, (codeSubGo rest.length k rest).2) := by
  intro l
  induction l with
  | nil => intro rest k _; simp
  | cons c l2 ih =>
      intro rest k h
      rw [List.cons_append,
        codeSubGo_cons_ne c (l2 ++ rest) k
          (fun he => h (he ▸ List.mem_cons_self c l2)),
        ih rest k (fun hm => h (List.mem_cons_of_mem c hm))]
      rw [List.cons_append]

/-- One scan step at a backtick, with fuels normalized to string
lengths. -/
theorem codeSubGo_backtick (rest : List Char) (k : Nat) :
    codeSubGo ('`' :: rest).length k ('`' :: rest) =
      if (rest.takeWhile (fun d => d ≠ '`')).isEmpty then
        ('`' :: (codeSubGo rest.length k rest).1, (codeSubGo rest.length k rest).2)
      else if (rest.drop (rest.takeWhile (fun d => d ≠ '`')).length).isEmpty then
        ('`' :: (codeSubGo rest.length k rest).1, (codeSubGo rest.length k rest).2)
      else
        (placeholder k ++
          (codeSubGo (rest.drop ((rest.takeWhile (fun d => d ≠ '`')).length + 1)).length
            (k + 1) (rest.drop ((rest.takeWhile (fun d => d ≠ '`')).length + 1))).1,
         rest.takeWhile (fun d => d ≠ '`') ::
          (codeSubGo (rest.drop ((rest.takeWhile (fun d => d ≠ '`')).length + 1)).length
            (k + 1) (rest.drop ((rest.takeWhile (fun d => d ≠ '`')).length + 1))).2) := by
  rw [List.length_cons]
  simp only [codeSubGo]
  rw [if_pos trivial]
  by_cases he : ((rest.takeWhile (fun d => d ≠ '`')).isEmpty)
  · rw [if_pos he, if_pos he]
  · rw [if_neg he, if_neg he]
    by_cases hd : ((rest.drop (rest.takeWhile (fun d => d ≠ '`')).length).isEmpty)
    · rw [if_pos hd, if_pos hd]
    · rw [if_neg hd, if_neg hd,
        codeSubGo_fuel_eq rest.length
          (rest.drop ((rest.takeWhile (fun d => d ≠ '`')).length + 1)) (k + 1)
          rest.length
          (rest.drop ((rest.takeWhile (fun d => d ≠ '`')).length + 1)).length
          (by rw [List.length_drop]; omega)
          (by rw [List.length_drop]; omega)
          (le_refl _)]

/-- Every character emitted by the numeral printer is a digit character of
the base. -/
theorem toDigitsCore_mem (b : Nat) (hb : 0 < b) :
    ∀ (fuel n : Nat) (acc : List Char) (c : Char),
      c ∈ Nat.toDigitsCore b fuel n acc →
      c ∈ acc ∨ ∃ m, m < b ∧ c = Nat.digitChar m := by
  intro fuel
  induction fuel with
  | zero => intro n acc c hc; exact Or.inl hc
  | succ f ih =>
      intro n acc c hc
      simp only [Nat.toDigitsCore] at hc
      by_cases h0 : n / b = 0
      · rw [if_pos h0] at hc
        rcases List.mem_cons.mp hc with rfl | hacc
        · exact Or.inr ⟨n % b, Nat.mod_lt n hb, rfl⟩
        · exact Or.inl hacc
      · rw [if_neg h0] at hc
        rcases ih (n / b) (Nat.digitChar (n % b) :: acc) c hc with hacc | hd
        · rcases List.mem_cons.mp hacc with rfl | hacc2
          · exact Or.inr ⟨n % b, Nat.mod_lt n hb, rfl⟩
          · exact Or.inl hacc2
        · exact Or.inr hd

theorem natStr_digit (n : Nat) : ∀ c ∈ natStr n, ∃ m, m < 10 ∧ c = Nat.digitChar m := by
  intro c hc
  have he : natStr n = Nat.toDigitsCore 10 (n + 1) n [] := rfl
  rw [he] at hc
  rcases toDigitsCore_mem 10 (by omega) (n + 1) n [] c hc with h | h
  · cases h
  · exact h

theorem placeholder_plain (k : Nat) :
    ∀ c ∈ placeholder k, c ≠ '&' ∧ c ≠ '<' ∧ c ≠ '>' := by
  intro c hc
  unfold placeholder at hc
  rcases List.mem_append.mp hc with hc2 | hc2
  · rcases List.mem_append.mp hc2 with hc3 | hc3
    · have : c = '@' ∨ c = '@' ∨ c = 'C' ∨ c = 'O' ∨ c = 'D' ∨ c = 'E' := by
        simpa [sl] using hc3
      rcases this with rfl | rfl | rfl | rfl | rfl | rfl <;>
        exact ⟨by decide, by decide, by decide⟩
    · obtain ⟨m, hm, rfl⟩ := natStr_digit k c hc3
      have hall : ∀ m2, m2 < 10 →
          Nat.digitChar m2 ≠ '&' ∧ Nat.digitChar m2 ≠ '<' ∧ Nat.digitChar m2 ≠ '>' := by
        decide
      exact hall m hm
  · have : c = '@' ∨ c = '@' := by simpa [sl] using hc2
    rcases this with rfl | rfl <;> exact ⟨by decide, by decide, by decide⟩

/-- The code-span extraction preserves the `Safe` grammar, for the scan
result and for every collected span. -/
theorem codeSubGo_safe :
    ∀ (n : Nat) (s : List Char), s.length ≤ n → Safe s → ∀ k,
      Safe (codeSubGo s.length k s).1 ∧
        ∀ sp ∈ (codeSubGo s.length k s).2, Safe sp := by
  intro n
  induction n with
  | zero =>
      intro s hn hs k
      have he : s = [] := List.eq_nil_of_length_eq_zero (by omega)
      subst he
      exact ⟨Safe.nil, fun sp hsp => by simp [codeSubGo] at hsp⟩
  | succ m ih =>
      intro s hn hs k
      cases hs with
      | nil => exact ⟨Safe.nil, fun sp hsp => by simp [codeSubGo] at hsp⟩
      | plain c rest h1 h2 h3 hrest =>
          by_cases hc : c = '`'
          · subst hc
            rw [codeSubGo_backtick]
            by_cases he : ((rest.takeWhile (fun d => d ≠ '`')).isEmpty)
            · rw [if_pos he]
              obtain ⟨hsafe, hsp⟩ := ih rest
                (by simp only [List.length_cons] at hn; omega) hrest k
              exact ⟨Safe.plain '`' _ h1 h2 h3 hsafe, hsp⟩
            · rw [if_neg he]
              by_cases hd : ((rest.drop (rest.takeWhile (fun d => d ≠ '`')).length).isEmpty)
              · rw [if_pos hd]
                obtain ⟨hsafe, hsp⟩ := ih rest
                  (by simp only [List.length_cons] at hn; omega) hrest k
                exact ⟨Safe.plain '`' _ h1 h2 h3 hsafe, hsp⟩
              · rw [if_neg hd]
                -- decompose rest = content ++ '`' :: rest2
                have hsplit : rest.takeWhile (fun d => d ≠ '`')
                    ++ rest.dropWhile (fun d => d ≠ '`') = rest :=
                  List.takeWhile_append_dropWhile ..
                have hdw : rest.drop (rest.takeWhile (fun d => d ≠ '`')).length
                    = rest.dropWhile (fun d => d ≠ '`') := by
                  calc rest.drop (rest.takeWhile (fun d => d ≠ '`')).length
                      = (rest.takeWhile (fun d => d ≠ '`')
                          ++ rest.dropWhile (fun d => d ≠ '`')).drop
                            (rest.takeWhile (fun d => d ≠ '`')).length := by
                        rw [hsplit]
                    _ = rest.dropWhile (fun d => d ≠ '`') := List.drop_left _ _
                have hdwne : rest.dropWhile (fun d => d ≠ '`') ≠ [] := by
                  intro h0
                  rw [hdw, h0] at hd
                  exact hd rfl
                obtain ⟨d, rest2, hcons⟩ :=
                  List.exists_cons_of_ne_nil hdwne
                have hdtick : d = '`' := by
                  have := head?_dropWhile_not (fun d => d ≠ '`') rest d
                    (by rw [hcons]; rfl)
                  simpa using this
                subst hdtick
                have hdecomp : rest = rest.takeWhile (fun d => d ≠ '`')
                    ++ '`' :: rest2 := by
                  rw [hcons] at hsplit
                  exact hsplit.symm
                have hnb : '`' ∉ rest.takeWhile (fun d => d ≠ '`') := by
                  intro hm
                  have := List.mem_takeWhile_imp hm
                  simp at this
                obtain ⟨hSc, hSr2⟩ := safe_split rest hrest '`' (by decide)
                  (rest.takeWhile (fun d => d ≠ '`')) rest2 hdecomp hnb
                have hlen2 : rest2.length ≤ m := by
                  have hle := congrArg List.length hdecomp
                  simp only [List.length_append, List.length_cons] at hle
                  simp only [List.length_cons] at hn
                  omega
                -- rewrite the recursion argument to rest2
                have hdrop2 : rest.drop ((rest.takeWhile (fun d => d ≠ '`')).length + 1)
                    = rest2 := by
                  calc rest.drop ((rest.takeWhile (fun d => d ≠ '`')).length + 1)
                      = (rest.takeWhile (fun d => d ≠ '`')
                          ++ '`' :: rest2).drop
                            ((rest.takeWhile (fun d => d ≠ '`')).length + 1) := by
                        rw [← hdecomp]
                    _ = ('`' :: rest2).drop 1 := List.drop_append ..
                    _ = rest2 := rfl
                rw [hdrop2]
                obtain ⟨hsafe, hsp⟩ := ih rest2 hlen2 hSr2 (k + 1)
                refine ⟨?_, ?_⟩
                · exact safe_plain_append (placeholder k) _ (placeholder_plain k) hsafe
                · intro sp hsp2
                  rcases List.mem_cons.mp hsp2 with rfl | hsp3
                  · exact hSc
                  · exact hsp sp hsp3
          · rw [codeSubGo_cons_ne c rest k hc]
            obtain ⟨hsafe, hsp⟩ := ih rest
              (by simp only [List.length_cons] at hn; omega) hrest k
            exact ⟨Safe.plain c _ h1 h2 h3 hsafe, hsp⟩
      | entAmp rest hrest =>
          rw [show ('&' :: 'a' :: 'm' :: 'p' :: ';' :: rest)
              = sl "&amp;" ++ rest from rfl, codeSubGo_copy _ _ k (by decide)]
          obtain ⟨hsafe, hsp⟩ := ih rest
            (by simp only [List.length_cons] at hn; omega) hrest k
          exact ⟨Safe.entAmp _ hsafe, hsp⟩
      | entLt rest hrest =>
          rw [show ('&' :: 'l' :: 't' :: ';' :: rest)
              = sl "&lt;" ++ rest from rfl, codeSubGo_copy _ _ k (by decide)]
          obtain ⟨hsafe, hsp⟩ := ih rest
            (by simp only [List.length_cons] at hn; omega) hrest k
          exact ⟨Safe.entLt _ hsafe, hsp⟩
      | entGt rest hrest =>
          rw [show ('&' :: 'g' :: 't' :: ';' :: rest)
              = sl "&gt;" ++ rest from rfl, codeSubGo_copy _ _ k (by decide)]
          obtain ⟨hsafe, hsp⟩ := ih rest
            (by simp only [List.length_cons] at hn; omega) hrest k
          exact ⟨Safe.entGt _ hsafe, hsp⟩
      | tagBOpen rest hrest =>
          rw [show ('<' :: 'b' :: '>' :: rest)
              = sl "<b>" ++ rest from rfl, codeSubGo_copy _ _ k (by decide)]
          obtain ⟨hsafe, hsp⟩ := ih rest
            (by simp only [List.length_cons] at hn; omega) hrest k
          exact ⟨Safe.tagBOpen _ hsafe, hsp⟩
      | tagBClose rest hrest =>
          rw [show ('<' :: '/' :: 'b' :: '>' :: rest)
              = sl "</b>" ++ rest from rfl, codeSubGo_copy _ _ k (by decide)]
          obtain ⟨hsafe, hsp⟩ := ih rest
            (by simp only [List.length_cons] at hn; omega) hrest k
          exact ⟨Safe.tagBClose _ hsafe, hsp⟩
      | tagIOpen rest hrest =>
          rw [show ('<' :: 'i' :: '>' :: rest)
              = sl "<i>" ++ rest from rfl, codeSubGo_copy _ _ k (by decide)]
          obtain ⟨hsafe, hsp⟩ := ih rest
            (by simp only [List.length_cons] at hn; omega) hrest k
          exact ⟨Safe.tagIOpen _ hsafe, hsp⟩
      | tagIClose rest hrest =>
          rw [show ('<' :: '/' :: 'i' :: '>' :: rest)
              = sl "</i>" ++ rest from rfl, codeSubGo_copy _ _ k (by decide)]
          obtain ⟨hsafe, hsp⟩ := ih rest
            (by simp only [List.length_cons] at hn; omega) hrest k
          exact ⟨Safe.tagIClose _ hsafe, hsp⟩
      | tagFontOpen rest hrest =>
          rw [show ('<' :: 'f' :: 'o' :: 'n' :: 't' :: ' ' :: 'f' :: 'a' :: 'c'
              :: 'e' :: '=' :: '"' :: 'C' :: 'o' :: 'u' :: 'r' :: 'i' :: 'e'
              :: 'r' :: '"' :: '>' :: rest)
              = sl "<font face=\"Courier\">" ++ rest from rfl,
            codeSubGo_copy _ _ k (by decide)]
          obtain ⟨hsafe, hsp⟩ := ih rest
            (by simp only [List.length_cons] at hn; omega) hrest k
          exact ⟨Safe.tagFontOpen _ hsafe, hsp⟩
      | tagFontClose rest hrest =>
          rw [show ('<' :: '/' :: 'f' :: 'o' :: 'n' :: 't' :: '>' :: rest)
              = sl "</font>" ++ rest from rfl, codeSubGo_copy _ _ k (by decide)]
          obtain ⟨hsafe, hsp⟩ := ih rest
            (by simp only [List.length_cons] at hn; omega) hrest k
          exact ⟨Safe.tagFontClose _ hsafe, hsp⟩

/-! ## Bold substitution safety (C9) -/

theorem boldSubGo_fuel_eq :
    ∀ (n : Nat) (s : List Char) (f1 f2 : Nat), s.length ≤ n →
      s.length ≤ f1 → s.length ≤ f2 →
      boldSubGo f1 s = boldSubGo f2 s := by
  intro n
  induction n with
  | zero =>
      intro s f1 f2 hn _ _
      have hs : s = [] := List.eq_nil_of_length_eq_zero (by omega)
      subst hs
      simp [boldSubGo]
  | succ m ih =>
      intro s f1 f2 hn h1 h2
      cases s with
      | nil => simp [boldSubGo]
      | cons c t =>
          cases f1 with
          | zero => simp at h1
          | succ g1 =>
              cases f2 with
              | zero => simp at h2
              | succ g2 =>
                  simp only [boldSubGo]
                  simp only [List.length_cons] at hn h1 h2
                  by_cases hm : (c = '*' ∧ t.head? = some '*')
                  · rw [if_pos hm, if_pos hm]
                    by_cases he : ((t.tail.takeWhile (fun d => d ≠ '*')).isEmpty)
                    · rw [if_pos he, if_pos he,
                        ih t g1 g2 (by omega) (by omega) (by omega)]
                    · rw [if_neg he, if_neg he]
                      by_cases hcl : ((t.tail.drop
                          (t.tail.takeWhile (fun d => d ≠ '*')).length).take 2 = ['*', '*'])
                      · rw [if_pos hcl, if_pos hcl,
                          ih (t.tail.drop ((t.tail.takeWhile (fun d => d ≠ '*')).length + 2))
                            g1 g2
                            (by rw [List.length_drop, List.length_tail]; omega)
                            (by rw [List.length_drop, List.length_tail]; omega)
                            (by rw [List.length_drop, List.length_tail]; omega)]
                      · rw [if_neg hcl, if_neg hcl,
                          ih t g1 g2 (by omega) (by omega) (by omega)]
                  · rw [if_neg hm, if_neg hm,
                      ih t g1 g2 (by omega) (by omega) (by omega)]

theorem boldSubGo_cons_ne (c : Char) (t : List Char)
    (hc : ¬ (c = '*' ∧ t.head? = some '*')) :
    boldSubGo (c :: t).length (c :: t) = c :: boldSubGo t.length t := by
  rw [show (c :: t).length = t.length + 1 from List.length_cons ..]
  rw [boldSubGo]
  rw [if_neg hc]

theorem boldSubGo_copy :
    ∀ (l rest : List Char), '*' ∉ l →
      boldSubGo (l ++ rest).length (l ++ rest) = l ++ boldSubGo rest.length rest := by
  intro l
  induction l with
  | nil => intro rest _; simp
  | cons c l2 ih =>
      intro rest h
      rw [List.cons_append,
        boldSubGo_cons_ne c (l2 ++ rest)
          (fun hm => h (hm.1 ▸ List.mem_cons_self c l2)),
        ih rest (fun hm => h (List.mem_cons_of_mem c hm)), List.cons_append]

/-- One scan step at a double star, with the fuels produced by one
unfolding. -/
theorem boldSubGo_star (rest : List Char) :
    boldSubGo ('*' :: '*' :: rest).length ('*' :: '*' :: rest) =
      if (rest.takeWhile (fun d => d ≠ '*')).isEmpty then
        '*' :: boldSubGo ('*' :: rest).length ('*' :: rest)
      else if (rest.drop (rest.takeWhile (fun d => d ≠ '*')).length).take 2 = ['*', '*'] then
        sl "<b>" ++ rest.takeWhile (fun d => d ≠ '*') ++ sl "</b>" ++
          boldSubGo ('*' :: rest).length
            (rest.drop ((rest.takeWhile (fun d => d ≠ '*')).length + 2))
      else '*' :: boldSubGo ('*' :: rest).length ('*' :: rest) := by
  rw [show ('*' :: '*' :: rest).length = ('*' :: rest).length + 1 from List.length_cons ..]
  rw [boldSubGo]
  rw [if_pos (show '*' = '*' ∧ ('*' :: rest).head? = some '*' from ⟨rfl, rfl⟩)]
  rw [List.tail_cons]

/-- The bold substitution preserves the `Safe` grammar. -/
theorem boldSubGo_safe :
    ∀ (n : Nat) (s : List Char), s.length ≤ n → Safe s →
      Safe (boldSubGo s.length s) := by
  intro n
  induction n with
  | zero =>
      intro s hn hs
      have he : s = [] := List.eq_nil_of_length_eq_zero (by omega)
      subst he
      exact Safe.nil
  | succ m ih =>
      intro s hn hs
      cases hs with
      | nil => exact Safe.nil
      | plain c rest h1 h2 h3 hrest =>
          by_cases hc : c = '*'
          · subst hc
            cases rest with
            | nil =>
                rw [boldSubGo_cons_ne '*' [] (by simp)]
                exact Safe.plain '*' _ (by decide) (by decide) (by decide)
                  (by rw [show ([] : List Char).length = 0 from rfl]; exact Safe.nil)
            | cons r0 rest2 =>
                by_cases hr0 : r0 = '*'
                · subst hr0
                  have hrest2 : Safe rest2 :=
                    safe_cons_inv '*' rest2 hrest (by decide) (by decide)
                  simp only [List.length_cons] at hn
                  rw [boldSubGo_star rest2]
                  by_cases he : ((rest2.takeWhile (fun d => d ≠ '*')).isEmpty)
                  · rw [if_pos he]
                    exact Safe.plain '*' _ (by decide) (by decide) (by decide)
                      (ih ('*' :: rest2) (by simp only [List.length_cons]; omega) hrest)
                  · rw [if_neg he]
                    by_cases hcl : ((rest2.drop
                        (rest2.takeWhile (fun d => d ≠ '*')).length).take 2 = ['*', '*'])
                    · rw [if_pos hcl]
                      have hsplit : rest2.takeWhile (fun d => d ≠ '*')
                          ++ rest2.dropWhile (fun d => d ≠ '*') = rest2 :=
                        List.takeWhile_append_dropWhile ..
                      have hdw : rest2.drop (rest2.takeWhile (fun d => d ≠ '*')).length
                          = rest2.dropWhile (fun d => d ≠ '*') := by
                        calc rest2.drop (rest2.takeWhile (fun d => d ≠ '*')).length
                            = (rest2.takeWhile (fun d => d ≠ '*')
                                ++ rest2.dropWhile (fun d => d ≠ '*')).drop
                                  (rest2.takeWhile (fun d => d ≠ '*')).length := by
                              rw [hsplit]
                          _ = rest2.dropWhile (fun d => d ≠ '*') := List.drop_left _ _
                      rw [hdw] at hcl
                      have hD : rest2.dropWhile (fun d => d ≠ '*')
                          = '*' :: '*' :: (rest2.dropWhile (fun d => d ≠ '*')).drop 2 := by
                        calc rest2.dropWhile (fun d => d ≠ '*')
                            = (rest2.dropWhile (fun d => d ≠ '*')).take 2
                                ++ (rest2.dropWhile (fun d => d ≠ '*')).drop 2 :=
                              (List.take_append_drop ..).symm
                          _ = '*' :: '*' :: (rest2.dropWhile (fun d => d ≠ '*')).drop 2 := by
                              rw [hcl]
                              rfl
                      have hdecomp : rest2 = rest2.takeWhile (fun d => d ≠ '*')
                          ++ '*' :: '*' :: (rest2.dropWhile (fun d => d ≠ '*')).drop 2 := by
                        rw [← hD, hsplit]
                      have hnb : '*' ∉ rest2.takeWhile (fun d => d ≠ '*') := by
                        intro hm
                        have := List.mem_takeWhile_imp hm
                        simp at this
                      obtain ⟨hSc, hS1⟩ := safe_split rest2 hrest2 '*' (by decide)
                        (rest2.takeWhile (fun d => d ≠ '*'))
                        ('*' :: (rest2.dropWhile (fun d => d ≠ '*')).drop 2) hdecomp hnb
                      have hSr4 : Safe ((rest2.dropWhile (fun d => d ≠ '*')).drop 2) :=
                        safe_cons_inv '*' _ hS1 (by decide) (by decide)
                      have hlen4 : ((rest2.dropWhile (fun d => d ≠ '*')).drop 2).length
                          ≤ rest2.length := by
                        have hle := congrArg List.length hdecomp
                        simp only [List.length_append, List.length_cons] at hle
                        omega
                      have hdrop4 : rest2.drop
                          ((rest2.takeWhile (fun d => d ≠ '*')).length + 2)
                          = (rest2.dropWhile (fun d => d ≠ '*')).drop 2 := by
                        calc rest2.drop ((rest2.takeWhile (fun d => d ≠ '*')).length + 2)
                            = (rest2.takeWhile (fun d => d ≠ '*')
                                ++ '*' :: '*' :: (rest2.dropWhile (fun d => d ≠ '*')).drop 2).drop
                                  ((rest2.takeWhile (fun d => d ≠ '*')).length + 2) := by
                              rw [← hdecomp]
                          _ = ('*' :: '*' :: (rest2.dropWhile (fun d => d ≠ '*')).drop 2).drop 2 :=
                              List.drop_append ..
                          _ = (rest2.dropWhile (fun d => d ≠ '*')).drop 2 := rfl
                      rw [hdrop4,
                        boldSubGo_fuel_eq (rest2.length + 1)
                          ((rest2.dropWhile (fun d => d ≠ '*')).drop 2)
                          ('*' :: rest2).length
                          ((rest2.dropWhile (fun d => d ≠ '*')).drop 2).length
                          (by omega)
                          (by rw [List.length_cons]; omega)
                          (le_refl _),
                        List.append_assoc, List.append_assoc]
                      have hrec : Safe (boldSubGo
                          ((rest2.dropWhile (fun d => d ≠ '*')).drop 2).length
                          ((rest2.dropWhile (fun d => d ≠ '*')).drop 2)) :=
                        ih _ (by omega) hSr4
                      have htail : Safe (sl "</b>" ++ boldSubGo
                          ((rest2.dropWhile (fun d => d ≠ '*')).drop 2).length
                          ((rest2.dropWhile (fun d => d ≠ '*')).drop 2)) :=
                        Safe.tagBClose _ hrec
                      have hmid : Safe (rest2.takeWhile (fun d => d ≠ '*')
                          ++ (sl "</b>" ++ boldSubGo
                            ((rest2.dropWhile (fun d => d ≠ '*')).drop 2).length
                            ((rest2.dropWhile (fun d => d ≠ '*')).drop 2))) :=
                        safe_append _ _ hSc htail
                      exact Safe.tagBOpen _ hmid
                    · rw [if_neg hcl]
                      exact Safe.plain '*' _ (by decide) (by decide) (by decide)
                        (ih ('*' :: rest2) (by simp only [List.length_cons]; omega) hrest)
                · rw [boldSubGo_cons_ne '*' (r0 :: rest2)
                    (fun hpair => hr0 (Option.some.inj hpair.2))]
                  exact Safe.plain '*' _ (by decide) (by decide) (by decide)
                    (ih (r0 :: rest2) (by simp only [List.length_cons] at hn ⊢; omega) hrest)
          · rw [boldSubGo_cons_ne c rest (fun hpair => hc hpair.1)]
            exact Safe.plain c _ h1 h2 h3
              (ih rest (by simp only [List.length_cons] at hn; omega) hrest)
      | entAmp rest hrest =>
          rw [show ('&' :: 'a' :: 'm' :: 'p' :: ';' :: rest)
              = sl "&amp;" ++ rest from rfl, boldSubGo_copy _ _ (by decide)]
          exact Safe.entAmp _ (ih rest (by simp only [List.length_cons] at hn; omega) hrest)
      | entLt rest hrest =>
          rw [show ('&' :: 'l' :: 't' :: ';' :: rest)
              = sl "&lt;" ++ rest from rfl, boldSubGo_copy _ _ (by decide)]
          exact Safe.entLt _ (ih rest (by simp only [List.length_cons] at hn; omega) hrest)
      | entGt rest hrest =>
          rw [show ('&' :: 'g' :: 't' :: ';' :: rest)
              = sl "&gt;" ++ rest from rfl, boldSubGo_copy _ _ (by decide)]
          exact Safe.entGt _ (ih rest (by simp only [List.length_cons] at hn; omega) hrest)
      | tagBOpen rest hrest =>
          rw [show ('<' :: 'b' :: '>' :: rest)
              = sl "<b>" ++ rest from rfl, boldSubGo_copy _ _ (by decide)]
          exact Safe.tagBOpen _ (ih rest (by simp only [List.length_cons] at hn; omega) hrest)
      | tagBClose rest hrest =>
          rw [show ('<' :: '/' :: 'b' :: '>' :: rest)
              = sl "</b>" ++ rest from rfl, boldSubGo_copy _ _ (by decide)]
          exact Safe.tagBClose _ (ih rest (by simp only [List.length_cons] at hn; omega) hrest)
      | tagIOpen rest hrest =>
          rw [show ('<' :: 'i' :: '>' :: rest)
              = sl "<i>" ++ rest from rfl, boldSubGo_copy _ _ (by decide)]
          exact Safe.tagIOpen _ (ih rest (by simp only [List.length_cons] at hn; omega) hrest)
      | tagIClose rest hrest =>
          rw [show ('<' :: '/' :: 'i' :: '>' :: rest)
              = sl "</i>" ++ rest from rfl, boldSubGo_copy _ _ (by decide)]
          exact Safe.tagIClose _ (ih rest (by simp only [List.length_cons] at hn; omega) hrest)
      | tagFontOpen rest hrest =>
          rw [show ('<' :: 'f' :: 'o' :: 'n' :: 't' :: ' ' :: 'f' :: 'a' :: 'c'
              :: 'e' :: '=' :: '"' :: 'C' :: 'o' :: 'u' :: 'r' :: 'i' :: 'e'
              :: 'r' :: '"' :: '>' :: rest)
              = sl "<font face=\"Courier\">" ++ rest from rfl,
            boldSubGo_copy _ _ (by decide)]
          exact Safe.tagFontOpen _ (ih rest (by simp only [List.length_cons] at hn; omega) hrest)
      | tagFontClose rest hrest =>
          rw [show ('<' :: '/' :: 'f' :: 'o' :: 'n' :: 't' :: '>' :: rest)
              = sl "</font>" ++ rest from rfl, boldSubGo_copy _ _ (by decide)]
          exact Safe.tagFontClose _ (ih rest (by simp only [List.length_cons] at hn; omega) hrest)

theorem boldSub_safe (s : List Char) (hs : Safe s) : Safe (boldSub s) :=
  boldSubGo_safe s.length s (le_refl _) hs

/-! ## Italic substitution safety (C9) -/

theorem italicSubGo_fuel_eq :
    ∀ (n : Nat) (s : List Char) (prev : Option Char) (f1 f2 : Nat), s.length ≤ n →
      s.length ≤ f1 → s.length ≤ f2 →
      italicSubGo f1 prev s = italicSubGo f2 prev s := by
  intro n
  induction n with
  | zero =>
      intro s prev f1 f2 hn _ _
      have hs : s = [] := List.eq_nil_of_length_eq_zero (by omega)
      subst hs
      simp [italicSubGo]
  | succ m ih =>
      intro s prev f1 f2 hn h1 h2
      cases s with
      | nil => simp [italicSubGo]
      | cons c t =>
          cases f1 with
          | zero => simp at h1
          | succ g1 =>
              cases f2 with
              | zero => simp at h2
              | succ g2 =>
                  simp only [italicSubGo]
                  simp only [List.length_cons] at hn h1 h2
                  by_cases hc : c = '*'
                  · rw [if_pos hc, if_pos hc]
                    by_cases hp : prev = some '*'
                    · rw [if_pos hp, if_pos hp,
                        ih t (some '*') g1 g2 (by omega) (by omega) (by omega)]
                    · rw [if_neg hp, if_neg hp]
                      by_cases he : ((t.takeWhile (fun d => d ≠ '*')).isEmpty)
                      · rw [if_pos he, if_pos he,
                          ih t (some '*') g1 g2 (by omega) (by omega) (by omega)]
                      · rw [if_neg he, if_neg he]
                        by_cases hcl : ((t.drop
                              (t.takeWhile (fun d => d ≠ '*')).length).head? = some '*' &&
                            ((t.drop ((t.takeWhile (fun d => d ≠ '*')).length + 1)).head?
                              ≠ some '*'))
                        · rw [if_pos hcl, if_pos hcl,
                            ih (t.drop ((t.takeWhile (fun d => d ≠ '*')).length + 1))
                              (some '*') g1 g2
                              (by rw [List.length_drop]; omega)
                              (by rw [List.length_drop]; omega)
                              (by rw [List.length_drop]; omega)]
                        · rw [if_neg hcl, if_neg hcl,
                            ih t (some '*') g1 g2 (by omega) (by omega) (by omega)]
                  · rw [if_neg hc, if_neg hc,
                      ih t (some c) g1 g2 (by omega) (by omega) (by omega)]

theorem italicSubGo_cons_ne (c : Char) (t : List Char) (prev : Option Char)
    (hc : ¬ c = '*') :
    italicSubGo (c :: t).length prev (c :: t) = c :: italicSubGo t.length (some c) t := by
  rw [show (c :: t).length = t.length + 1 from List.length_cons ..]
  rw [italicSubGo]
  rw [if_neg hc]

theorem italicSubGo_copy :
    ∀ (l rest : List Char) (prev : Option Char), '*' ∉ l →
      ∃ prev2, italicSubGo (l ++ rest).length prev (l ++ rest)
        = l ++ italicSubGo rest.length prev2 rest := by
  intro l
  induction l with
  | nil => intro rest prev _; exact ⟨prev, by simp⟩
  | cons c l2 ih =>
      intro rest prev h
      have hc : ¬ c = '*' := fun he => h (he ▸ List.mem_cons_self c l2)
      obtain ⟨p2, hp2⟩ := ih rest (some c) (fun hm => h (List.mem_cons_of_mem c hm))
      refine ⟨p2, ?_⟩
      rw [List.cons_append, italicSubGo_cons_ne c (l2 ++ rest) prev hc, hp2,
        List.cons_append]

/-- One scan step at a star, with the fuels produced by one unfolding. -/
theorem italicSubGo_star (rest : List Char) (prev : Option Char) :
    italicSubGo ('*' :: rest).length prev ('*' :: rest) =
      if prev = some '*' then '*' :: italicSubGo rest.length (some '*') rest
      else if (rest.takeWhile (fun d => d ≠ '*')).isEmpty then
        '*' :: italicSubGo rest.length (some '*') rest
      else if ((rest.drop (rest.takeWhile (fun d => d ≠ '*')).length).head? = some '*' &&
          ((rest.drop ((rest.takeWhile (fun d => d ≠ '*')).length + 1)).head?
            ≠ some '*')) then
        sl "<i>" ++ rest.takeWhile (fun d => d ≠ '*') ++ sl "</i>" ++
          italicSubGo rest.length (some '*')
            (rest.drop ((rest.takeWhile (fun d => d ≠ '*')).length + 1))
      else '*' :: italicSubGo rest.length (some '*') rest := by
  rw [show ('*' :: rest).length = rest.length + 1 from List.length_cons ..]
  rw [italicSubGo]
  rw [if_pos (show '*' = '*' from rfl)]

/-- The italic substitution preserves the `Safe` grammar, for any
lookbehind state. -/
theorem italicSubGo_safe :
    ∀ (n : Nat) (s : List Char), s.length ≤ n → Safe s → ∀ prev,
      Safe (italicSubGo s.length prev s) := by
  intro n
  induction n with
  | zero =>
      intro s hn hs prev
      have he : s = [] := List.eq_nil_of_length_eq_zero (by omega)
      subst he
      exact Safe.nil
  | succ m ih =>
      intro s hn hs prev
      cases hs with
      | nil => exact Safe.nil
      | plain c rest h1 h2 h3 hrest =>
          simp only [List.length_cons] at hn
          by_cases hc : c = '*'
          · subst hc
            rw [italicSubGo_star rest prev]
            by_cases hp : prev = some '*'
            · rw [if_pos hp]
              exact Safe.plain '*' _ (by decide) (by decide) (by decide)
                (ih rest (by omega) hrest (some '*'))
            · rw [if_neg hp]
              by_cases he : ((rest.takeWhile (fun d => d ≠ '*')).isEmpty)
              · rw [if_pos he]
                exact Safe.plain '*' _ (by decide) (by decide) (by decide)
                  (ih rest (by omega) hrest (some '*'))
              · rw [if_neg he]
                by_cases hcl : ((rest.drop
                      (rest.takeWhile (fun d => d ≠ '*')).length).head? = some '*' &&
                    ((rest.drop ((rest.takeWhile (fun d => d ≠ '*')).length + 1)).head?
                      ≠ some '*'))
                · rw [if_pos hcl]
                  have hsplit : rest.takeWhile (fun d => d ≠ '*')
                      ++ rest.dropWhile (fun d => d ≠ '*') = rest :=
                    List.takeWhile_append_dropWhile ..
                  have hdw : rest.drop (rest.takeWhile (fun d => d ≠ '*')).length
                      = rest.dropWhile (fun d => d ≠ '*') := by
                    calc rest.drop (rest.takeWhile (fun d => d ≠ '*')).length
                        = (rest.takeWhile (fun d => d ≠ '*')
                            ++ rest.dropWhile (fun d => d ≠ '*')).drop
                              (rest.takeWhile (fun d => d ≠ '*')).length := by
                          rw [hsplit]
                      _ = rest.dropWhile (fun d => d ≠ '*') := List.drop_left _ _
                  have hhead : (rest.dropWhile (fun d => d ≠ '*')).head? = some '*' := by
                    have hb := (Bool.and_eq_true _ _).mp hcl
                    have := of_decide_eq_true hb.1
                    rw [hdw] at this
                    exact this
                  have hD : rest.dropWhile (fun d => d ≠ '*')
                      = '*' :: (rest.dropWhile (fun d => d ≠ '*')).tail := by
                    cases hDc : rest.dropWhile (fun d => d ≠ '*') with
                    | nil => rw [hDc] at hhead; simp at hhead
                    | cons d0 t0 =>
                        rw [hDc] at hhead
                        simp only [List.head?_cons, Option.some.injEq] at hhead
                        rw [List.tail_cons, hhead]
                  have hdecomp : rest = rest.takeWhile (fun d => d ≠ '*')
                      ++ '*' :: (rest.dropWhile (fun d => d ≠ '*')).tail := by
                    rw [← hD, hsplit]
                  have hnb : '*' ∉ rest.takeWhile (fun d => d ≠ '*') := by
                    intro hm
                    have := List.mem_takeWhile_imp hm
                    simp at this
                  obtain ⟨hSc, hS1⟩ := safe_split rest hrest '*' (by decide)
                    (rest.takeWhile (fun d => d ≠ '*'))
                    ((rest.dropWhile (fun d => d ≠ '*')).tail) hdecomp hnb
                  have hSr3 : Safe ((rest.dropWhile (fun d => d ≠ '*')).tail) := hS1
                  have hlen3 : ((rest.dropWhile (fun d => d ≠ '*')).tail).length
                      ≤ rest.length := by
                    have hle := congrArg List.length hdecomp
                    simp only [List.length_append, List.length_cons] at hle
                    omega
                  have hdrop3 : rest.drop
                      ((rest.takeWhile (fun d => d ≠ '*')).length + 1)
                      = (rest.dropWhile (fun d => d ≠ '*')).tail := by
                    calc rest.drop ((rest.takeWhile (fun d => d ≠ '*')).length + 1)
                        = (rest.takeWhile (fun d => d ≠ '*')
                            ++ '*' :: (rest.dropWhile (fun d => d ≠ '*')).tail).drop
                              ((rest.takeWhile (fun d => d ≠ '*')).length + 1) := by
                          rw [← hdecomp]
                      _ = ('*' :: (rest.dropWhile (fun d => d ≠ '*')).tail).drop 1 :=
                          List.drop_append ..
                      _ = (rest.dropWhile (fun d => d ≠ '*')).tail := rfl
                  rw [hdrop3,
                    italicSubGo_fuel_eq (rest.length)
                      ((rest.dropWhile (fun d => d ≠ '*')).tail) (some '*')
                      rest.length
                      ((rest.dropWhile (fun d => d ≠ '*')).tail).length
                      hlen3 hlen3 (le_refl _),
                    List.append_assoc, List.append_assoc]
                  have hrec : Safe (italicSubGo
                      ((rest.dropWhile (fun d => d ≠ '*')).tail).length (some '*')
                      ((rest.dropWhile (fun d => d ≠ '*')).tail)) :=
                    ih _ (by omega) hSr3 (some '*')
                  have htail : Safe (sl "</i>" ++ italicSubGo
                      ((rest.dropWhile (fun d => d ≠ '*')).tail).length (some '*')
                      ((rest.dropWhile (fun d => d ≠ '*')).tail)) :=
                    Safe.tagIClose _ hrec
                  have hmid : Safe (rest.takeWhile (fun d => d ≠ '*')
                      ++ (sl "</i>" ++ italicSubGo
                        ((rest.dropWhile (fun d => d ≠ '*')).tail).length (some '*')
                        ((rest.dropWhile (fun d => d ≠ '*')).tail))) :=
                    safe_append _ _ hSc htail
                  exact Safe.tagIOpen _ hmid
                · rw [if_neg hcl]
                  exact Safe.plain '*' _ (by decide) (by decide) (by decide)
                    (ih rest (by omega) hrest (some '*'))
          · rw [italicSubGo_cons_ne c rest prev hc]
            exact Safe.plain c _ h1 h2 h3 (ih rest (by omega) hrest (some c))
      | entAmp rest hrest =>
          obtain ⟨p2, hp2⟩ := italicSubGo_copy (sl "&amp;") rest prev (by decide)
          rw [show ('&' :: 'a' :: 'm' :: 'p' :: ';' :: rest)
              = sl "&amp;" ++ rest from rfl, hp2]
          exact Safe.entAmp _
            (ih rest (by simp only [List.length_cons] at hn; omega) hrest p2)
      | entLt rest hrest =>
          obtain ⟨p2, hp2⟩ := italicSubGo_copy (sl "&lt;") rest prev (by decide)
          rw [show ('&' :: 'l' :: 't' :: ';' :: rest)
              = sl "&lt;" ++ rest from rfl, hp2]
          exact Safe.entLt _
            (ih rest (by simp only [List.length_cons] at hn; omega) hrest p2)
      | entGt rest hrest =>
          obtain ⟨p2, hp2⟩ := italicSubGo_copy (sl "&gt;") rest prev (by decide)
          rw [show ('&' :: 'g' :: 't' :: ';' :: rest)
              = sl "&gt;" ++ rest from rfl, hp2]
          exact Safe.entGt _
            (ih rest (by simp only [List.length_cons] at hn; omega) hrest p2)
      | tagBOpen rest hrest =>
          obtain ⟨p2, hp2⟩ := italicSubGo_copy (sl "<b>") rest prev (by decide)
          rw [show ('<' :: 'b' :: '>' :: rest)
              = sl "<b>" ++ rest from rfl, hp2]
          exact Safe.tagBOpen _
            (ih rest (by simp only [List.length_cons] at hn; omega) hrest p2)
      | tagBClose rest hrest =>
          obtain ⟨p2, hp2⟩ := italicSubGo_copy (sl "</b>") rest prev (by decide)
          rw [show ('<' :: '/' :: 'b' :: '>' :: rest)
              = sl "</b>" ++ rest from rfl, hp2]
          exact Safe.tagBClose _
            (ih rest (by simp only [List.length_cons] at hn; omega) hrest p2)
      | tagIOpen rest hrest =>
          obtain ⟨p2, hp2⟩ := italicSubGo_copy (sl "<i>") rest prev (by decide)
          rw [show ('<' :: 'i' :: '>' :: rest)
              = sl "<i>" ++ rest from rfl, hp2]
          exact Safe.tagIOpen _
            (ih rest (by simp only [List.length_cons] at hn; omega) hrest p2)
      | tagIClose rest hrest =>
          obtain ⟨p2, hp2⟩ := italicSubGo_copy (sl "</i>") rest prev (by decide)
          rw [show ('<' :: '/' :: 'i' :: '>' :: rest)
              = sl "</i>" ++ rest from rfl, hp2]
          exact Safe.tagIClose _
            (ih rest (by simp only [List.length_cons] at hn; omega) hrest p2)
      | tagFontOpen rest hrest =>
          obtain ⟨p2, hp2⟩ := italicSubGo_copy (sl "<font face=\"Courier\">") rest prev
            (by decide)
          rw [show ('<' :: 'f' :: 'o' :: 'n' :: 't' :: ' ' :: 'f' :: 'a' :: 'c'
              :: 'e' :: '=' :: '"' :: 'C' :: 'o' :: 'u' :: 'r' :: 'i' :: 'e'
              :: 'r' :: '"' :: '>' :: rest)
              = sl "<font face=\"Courier\">" ++ rest from rfl, hp2]
          exact Safe.tagFontOpen _
            (ih rest (by simp only [List.length_cons] at hn; omega) hrest p2)
      | tagFontClose rest hrest =>
          obtain ⟨p2, hp2⟩ := italicSubGo_copy (sl "</font>") rest prev (by decide)
          rw [show ('<' :: '/' :: 'f' :: 'o' :: 'n' :: 't' :: '>' :: rest)
              = sl "</font>" ++ rest from rfl, hp2]
          exact Safe.tagFontClose _
            (ih rest (by simp only [List.length_cons] at hn; omega) hrest p2)

theorem italicSub_safe (s : List Char) (hs : Safe s) : Safe (italicSub s) :=
  italicSubGo_safe s.length s (le_refl _) hs none

/-! ## Code-span restoration safety (C9) -/

/-- A replacement scan whose pattern consists of neutral, unit-free
characters preserves the `Safe` grammar whenever the replacement is
`Safe`. -/
theorem pyReplaceGo_safe :
    ∀ (n : Nat) (s : List Char), s.length ≤ n → Safe s →
      ∀ (p : Char) (pt rep : List Char), Safe rep → unitFree p →
        (∀ c ∈ p :: pt, c ≠ '&' ∧ c ≠ '<' ∧ c ≠ '>') →
        Safe (pyReplaceGo (p :: pt) rep s.length s) := by
  intro n
  induction n with
  | zero =>
      intro s hn hs p pt rep hrep huf hpat
      have he : s = [] := List.eq_nil_of_length_eq_zero (by omega)
      subst he
      exact Safe.nil
  | succ m ih =>
      intro s hn hs p pt rep hrep huf hpat
      obtain ⟨hu1, hu2, hu3, hu4, hu5, hu6, hu7, hu8, hu9⟩ := huf
      cases hs with
      | nil => exact Safe.nil
      | plain c rest h1 h2 h3 hrest =>
          simp only [List.length_cons] at hn
          rw [show (c :: rest).length = rest.length + 1 from List.length_cons ..]
          rw [pyReplaceGo]
          by_cases hpre : ((p :: pt).isPrefixOf (c :: rest) = true)
          · rw [if_pos hpre]
            obtain ⟨r2, hr2⟩ : ∃ r2, (p :: pt) ++ r2 = c :: rest :=
              List.isPrefixOf_iff_prefix.mp hpre
            have hSafeAll : Safe (c :: rest) := Safe.plain c rest h1 h2 h3 hrest
            have htake : (c :: rest).take (p :: pt).length = p :: pt := by
              rw [← hr2]
              exact List.take_left _ _
            have hSafeDrop : Safe ((c :: rest).drop (p :: pt).length) :=
              safe_drop_of_neutral (c :: rest) hSafeAll (p :: pt).length
                (fun d hd => by
                  rw [htake] at hd
                  exact ⟨(hpat d hd).1, (hpat d hd).2.1⟩)
            have hlend : ((c :: rest).drop (p :: pt).length).length ≤ rest.length := by
              rw [List.length_drop]
              simp only [List.length_cons]
              omega
            rw [pyReplaceGo_fuel_eq p pt rep (rest.length + 1)
              ((c :: rest).drop (p :: pt).length) rest.length
              ((c :: rest).drop (p :: pt).length).length
              (by omega) (by omega) (le_refl _)]
            exact safe_append rep _ hrep
              (ih ((c :: rest).drop (p :: pt).length) (by omega) hSafeDrop
                p pt rep hrep ⟨hu1, hu2, hu3, hu4, hu5, hu6, hu7, hu8, hu9⟩ hpat)
          · rw [if_neg hpre]
            exact Safe.plain c _ h1 h2 h3
              (ih rest (by omega) hrest p pt rep hrep
                ⟨hu1, hu2, hu3, hu4, hu5, hu6, hu7, hu8, hu9⟩ hpat)
      | entAmp rest hrest =>
          simp only [List.length_cons] at hn
          rw [show ('&' :: 'a' :: 'm' :: 'p' :: ';' :: rest)
              = sl "&amp;" ++ rest from rfl,
            show (sl "&amp;" ++ rest).length = (sl "&amp;").length + rest.length
              from List.length_append ..,
            pyReplaceGo_copy p pt rep (sl "&amp;") rest hu1]
          exact Safe.entAmp _
            (ih rest (by omega) hrest p pt rep hrep
              ⟨hu1, hu2, hu3, hu4, hu5, hu6, hu7, hu8, hu9⟩ hpat)
      | entLt rest hrest =>
          simp only [List.length_cons] at hn
          rw [show ('&' :: 'l' :: 't' :: ';' :: rest)
              = sl "&lt;" ++ rest from rfl,
            show (sl "&lt;" ++ rest).length = (sl "&lt;").length + rest.length
              from List.length_append ..,
            pyReplaceGo_copy p pt rep (sl "&lt;") rest hu2]
          exact Safe.entLt _
            (ih rest (by omega) hrest p pt rep hrep
              ⟨hu1, hu2, hu3, hu4, hu5, hu6, hu7, hu8, hu9⟩ hpat)
      | entGt rest hrest =>
          simp only [List.length_cons] at hn
          rw [show ('&' :: 'g' :: 't' :: ';' :: rest)
              = sl "&gt;" ++ rest from rfl,
            show (sl "&gt;" ++ rest).length = (sl "&gt;").length + rest.length
              from List.length_append ..,
            pyReplaceGo_copy p pt rep (sl "&gt;") rest hu3]
          exact Safe.entGt _
            (ih rest (by omega) hrest p pt rep hrep
              ⟨hu1, hu2, hu3, hu4, hu5, hu6, hu7, hu8, hu9⟩ hpat)
      | tagBOpen rest hrest =>
          simp only [List.length_cons] at hn
          rw [show ('<' :: 'b' :: '>' :: rest)
              = sl "<b>" ++ rest from rfl,
            show (sl "<b>" ++ rest).length = (sl "<b>").length + rest.length
              from List.length_append ..,
            pyReplaceGo_copy p pt rep (sl "<b>") rest hu4]
          exact Safe.tagBOpen _
            (ih rest (by omega) hrest p pt rep hrep
              ⟨hu1, hu2, hu3, hu4, hu5, hu6, hu7, hu8, hu9⟩ hpat)
      | tagBClose rest hrest =>
          simp only [List.length_cons] at hn
          rw [show ('<' :: '/' :: 'b' :: '>' :: rest)
              = sl "</b>" ++ rest from rfl,
            show (sl "</b>" ++ rest).length = (sl "</b>").length + rest.length
              from List.length_append ..,
            pyReplaceGo_copy p pt rep (sl "</b>") rest hu5]
          exact Safe.tagBClose _
            (ih rest (by omega) hrest p pt rep hrep
              ⟨hu1, hu2, hu3, hu4, hu5, hu6, hu7, hu8, hu9⟩ hpat)
      | tagIOpen rest hrest =>
          simp only [List.length_cons] at hn
          rw [show ('<' :: 'i' :: '>' :: rest)
              = sl "<i>" ++ rest from rfl,
            show (sl "<i>" ++ rest).length = (sl "<i>").length + rest.length
              from List.length_append ..,
            pyReplaceGo_copy p pt rep (sl "<i>") rest hu6]
          exact Safe.tagIOpen _
            (ih rest (by omega) hrest p pt rep hrep
              ⟨hu1, hu2, hu3, hu4, hu5, hu6, hu7, hu8, hu9⟩ hpat)
      | tagIClose rest hrest =>
          simp only [List.length_cons] at hn
          rw [show ('<' :: '/' :: 'i' :: '>' :: rest)
              = sl "</i>" ++ rest from rfl,
            show (sl "</i>" ++ rest).length = (sl "</i>").length + rest.length
              from List.length_append ..,
            pyReplaceGo_copy p pt rep (sl "</i>") rest hu7]
          exact Safe.tagIClose _
            (ih rest (by omega) hrest p pt rep hrep
              ⟨hu1, hu2, hu3, hu4, hu5, hu6, hu7, hu8, hu9⟩ hpat)
      | tagFontOpen rest hrest =>
          simp only [List.length_cons] at hn
          rw [show ('<' :: 'f' :: 'o' :: 'n' :: 't' :: ' ' :: 'f' :: 'a' :: 'c'
              :: 'e' :: '=' :: '"' :: 'C' :: 'o' :: 'u' :: 'r' :: 'i' :: 'e'
              :: 'r' :: '"' :: '>' :: rest)
              = sl "<font face=\"Courier\">" ++ rest from rfl,
            show (sl "<font face=\"Courier\">" ++ rest).length
                = (sl "<font face=\"Courier\">").length + rest.length
              from List.length_append ..,
            pyReplaceGo_copy p pt rep (sl "<font face=\"Courier\">") rest hu8]
          exact Safe.tagFontOpen _
            (ih rest (by omega) hrest p pt rep hrep
              ⟨hu1, hu2, hu3, hu4, hu5, hu6, hu7, hu8, hu9⟩ hpat)
      | tagFontClose rest hrest =>
          simp only [List.length_cons] at hn
          rw [show ('<' :: '/' :: 'f' :: 'o' :: 'n' :: 't' :: '>' :: rest)
              = sl "</font>" ++ rest from rfl,
            show (sl "</font>" ++ rest).length = (sl "</font>").length + rest.length
              from List.length_append ..,
            pyReplaceGo_copy p pt rep (sl "</font>") rest hu9]
          exact Safe.tagFontClose _
            (ih rest (by omega) hrest p pt rep hrep
              ⟨hu1, hu2, hu3, hu4, hu5, hu6, hu7, hu8, hu9⟩ hpat)

/-- Restoring the collected code spans, each wrapped in the Courier font
tag, preserves the `Safe` grammar. -/
theorem restoreCodeGo_safe :
    ∀ (codes : List (List Char)) (s : List Char) (i : Nat),
      Safe s → (∀ c ∈ codes, Safe c) → Safe (restoreCodeGo s i codes) := by
  intro codes
  induction codes with
  | nil => intro s i hs _; exact hs
  | cons code rest ih =>
      intro s i hs hcodes
      show Safe (restoreCodeGo
        (pyReplace (placeholder i)
          (sl "<font face=\"Courier\">" ++ code ++ sl "</font>") s) (i + 1) rest)
      apply ih _ (i + 1) _ (fun c hc => hcodes c (List.mem_cons_of_mem code hc))
      have hrepTail : Safe (code ++ sl "</font>") :=
        safe_append code _ (hcodes code (List.mem_cons_self code rest))
          (Safe.tagFontClose [] Safe.nil)
      have hrep : Safe (sl "<font face=\"Courier\">" ++ code ++ sl "</font>") := by
        rw [List.append_assoc]
        exact Safe.tagFontOpen _ hrepTail
      have hpl : placeholder i
          = '@' :: ('@' :: 'C' :: 'O' :: 'D' :: 'E' :: (natStr i ++ sl "@@")) := rfl
      rw [hpl]
      show Safe (pyReplaceGo
        ('@' :: ('@' :: 'C' :: 'O' :: 'D' :: 'E' :: (natStr i ++ sl "@@")))
        (sl "<font face=\"Courier\">" ++ code ++ sl "</font>") s.length s)
      exact pyReplaceGo_safe s.length s (le_refl _) hs '@'
        ('@' :: 'C' :: 'O' :: 'D' :: 'E' :: (natStr i ++ sl "@@"))
        (sl "<font face=\"Courier\">" ++ code ++ sl "</font>")
        hrep (by decide)
        (fun c hc => placeholder_plain i c (hpl ▸ hc))

/-- C9: `md_inline_to_rl` escapes `&`, `<` and `>` before inserting any
tag, and inserts its tags only afterwards: its output always lies in the
escaped-markup grammar `Safe`, in which every `&` starts one of the
entities `&amp;`, `&lt;`, `&gt;` and every `<` or `>` belongs to one of
the inserted tags `<b>`, `</b>`, `<i>`, `</i>`,
`<font face="Courier">`, `</font>`; in particular literal `<`, `>`, `&`
in the input never reach the output unescaped, and the inserted tags are
never themselves escaped. -/
theorem c9_inline_escaped (s : List Char) : Safe (mdInlineToRl s) := by
  show Safe (restoreCodeGo (italicSub (boldSub (codeSub (esc s)).1)) 0
    (codeSub (esc s)).2)
  have hesc := esc_safe s
  have hcode := codeSubGo_safe (esc s).length (esc s) (le_refl _) hesc 0
  have hb := boldSub_safe _ hcode.1
  have hi := italicSub_safe _ hb
  exact restoreCodeGo_safe (codeSub (esc s)).2 _ 0 hi hcode.2

end LessonSummarizer
